import Mathlib

/-!
Verification development for the Maze-Runner repository.

The repository consists of `hollows.py`, `betterbst.py` and `maze.py`,
which depend on course-provided modules (`data_structures/bst.py`,
`data_structures/heap.py`, `algorithms/mergesort.py`, `config.py`,
`treasure.py`) that are not part of the repository.  Definitions for
those missing modules are modelled from the specification and are marked
as such in their doc comments.  Everything else is a direct shallow
embedding of the Python source.  Numeric values are embedded as rationals
(`ℚ`), so the value/weight ratio arithmetic is exact.
-/

/-- Modelled from the spec (`treasure.py` is not in the repository):
a treasure is an immutable record of a value and a weight. -/
structure Treasure where
  value : ℚ
  weight : ℚ
deriving DecidableEq, Repr

/-- The value/weight ratio of a treasure, the sole ranking key for
greedy selection. -/
def Treasure.ratio (t : Treasure) : ℚ := t.value / t.weight

/-! ### Sequence sorter

Modelled from the spec (`algorithms/mergesort.py` is not in the
repository): a stable merge-based divide-and-conquer sort over key/item
pairs, in non-decreasing key order.  The recursion is expressed with an
explicit fuel argument (the list length bounds the recursion depth), so
that all definitions compute by structural recursion. -/

/-- Comparison used by the sorter: non-decreasing key order. -/
def keyLE {α : Type} (a b : ℚ × α) : Bool := a.1 ≤ b.1

/-- Merge two sorted lists, taking from the left list on ties
(stability).  `fuel` bounds the recursion depth; it is never exhausted
when `fuel ≥ xs.length + ys.length`. -/
def mergeFuel {α : Type} (le : α → α → Bool) : ℕ → List α → List α → List α
  | 0, xs, ys => xs ++ ys
  | _ + 1, [], ys => ys
  | _ + 1, x :: xs, [] => x :: xs
  | f + 1, x :: xs, y :: ys =>
    if le x y then x :: mergeFuel le f xs (y :: ys)
    else y :: mergeFuel le f (x :: xs) ys

/-- Merge sort: split at the midpoint, sort both halves, merge.  `fuel`
bounds the recursion depth; `fuel ≥ l.length` is always sufficient. -/
def mergesortFuel {α : Type} (le : α → α → Bool) : ℕ → List α → List α
  | 0, l => l
  | f + 1, l =>
    if l.length ≤ 1 then l
    else
      mergeFuel le (l.length) (mergesortFuel le f (l.take (l.length / 2)))
        (mergesortFuel le f (l.drop (l.length / 2)))

/-- Modelled from the spec: `mergesort` from `algorithms/mergesort.py`,
instantiated at key/item pairs as used by `BetterBST`. -/
def mergesort {α : Type} (l : List (ℚ × α)) : List (ℚ × α) :=
  mergesortFuel keyLE l.length l

theorem mergeFuel_perm {α : Type} (le : α → α → Bool) :
    ∀ (f : ℕ) (xs ys : List α), (mergeFuel le f xs ys).Perm (xs ++ ys) := by
  intro f
  induction f with
  | zero => intro xs ys; simp [mergeFuel]
  | succ f ih =>
    intro xs ys
    match xs, ys with
    | [], ys => simp [mergeFuel]
    | x :: xs, [] => simp [mergeFuel]
    | x :: xs, y :: ys =>
      simp only [mergeFuel]
      by_cases h : le x y
      · simp only [h, if_pos]
        exact ((ih xs (y :: ys)).cons x)
      · simp only [h, if_neg, Bool.false_eq_true, not_false_iff]
        refine ((ih (x :: xs) ys).cons y).trans ?_
        exact List.Perm.symm (List.perm_middle)

theorem mergesortFuel_perm {α : Type} (le : α → α → Bool) :
    ∀ (f : ℕ) (l : List α), (mergesortFuel le f l).Perm l := by
  intro f
  induction f with
  | zero => intro l; simp [mergesortFuel]
  | succ f ih =>
    intro l
    simp only [mergesortFuel]
    by_cases h : l.length ≤ 1
    · simp [h]
    · simp only [h, if_neg, not_false_iff]
      refine (mergeFuel_perm le _ _ _).trans ?_
      refine (List.Perm.append (ih _) (ih _)).trans ?_
      simp [List.take_append_drop]

theorem mergesort_perm {α : Type} (l : List (ℚ × α)) : (mergesort l).Perm l :=
  mergesortFuel_perm keyLE l.length l

/-- Sortedness of a key/item list: non-decreasing keys. -/
def KeySorted {α : Type} (l : List (ℚ × α)) : Prop :=
  l.Pairwise (fun a b => a.1 ≤ b.1)

theorem mergeFuel_sorted {α : Type} :
    ∀ (f : ℕ) (xs ys : List (ℚ × α)), xs.length + ys.length ≤ f →
      KeySorted xs → KeySorted ys → KeySorted (mergeFuel keyLE f xs ys) := by
  intro f
  induction f with
  | zero =>
    intro xs ys hf hxs hys
    match xs, ys with
    | [], [] => simpa [mergeFuel] using hxs
    | [], y :: ys => simp at hf
    | x :: xs, _ => simp at hf
  | succ f ih =>
    intro xs ys hf hxs hys
    match xs, ys with
    | [], ys => simpa [mergeFuel] using hys
    | x :: xs, [] => simpa [mergeFuel] using hxs
    | x :: xs, y :: ys =>
      simp only [mergeFuel]
      simp only [KeySorted, List.pairwise_cons] at hxs hys
      by_cases h : keyLE x y
      · simp only [h, if_pos]
        simp only [KeySorted, List.pairwise_cons]
        constructor
        · intro z hz
          have hz' := (mergeFuel_perm keyLE f xs (y :: ys)).mem_iff.mp hz
          rcases List.mem_append.mp hz' with hz1 | hz2
          · exact hxs.1 z hz1
          · rcases List.mem_cons.mp hz2 with rfl | hz3
            · simpa [keyLE, decide_eq_true_eq] using h
            · have h1 : x.1 ≤ y.1 := by simpa [keyLE, decide_eq_true_eq] using h
              exact h1.trans (hys.1 z hz3)
        · refine ih xs (y :: ys) ?_ hxs.2 ?_
          · simp only [List.length_cons] at hf ⊢
            omega
          · simp only [KeySorted, List.pairwise_cons]
            exact hys
      · simp only [h, if_neg, Bool.false_eq_true, not_false_iff]
        have h1 : y.1 ≤ x.1 := by
          have := lt_of_not_ge (by simpa [keyLE, decide_eq_true_eq] using h)
          exact this.le
        simp only [KeySorted, List.pairwise_cons]
        constructor
        · intro z hz
          have hz' := (mergeFuel_perm keyLE f (x :: xs) ys).mem_iff.mp hz
          rcases List.mem_append.mp hz' with hz1 | hz2
          · rcases List.mem_cons.mp hz1 with rfl | hz3
            · exact h1
            · exact h1.trans (hxs.1 z hz3)
          · exact hys.1 z hz2
        · refine ih (x :: xs) ys ?_ ?_ hys.2
          · simp only [List.length_cons] at hf ⊢
            omega
          · simp only [KeySorted, List.pairwise_cons]
            exact hxs

theorem mergesortFuel_sorted {α : Type} :
    ∀ (f : ℕ) (l : List (ℚ × α)), l.length ≤ f →
      KeySorted (mergesortFuel keyLE f l) := by
  intro f
  induction f with
  | zero =>
    intro l hf
    have : l = [] := List.length_eq_zero.mp (Nat.le_zero.mp hf)
    subst this
    simp [mergesortFuel, KeySorted]
  | succ f ih =>
    intro l hf
    simp only [mergesortFuel]
    by_cases h : l.length ≤ 1
    · simp only [h, if_pos]
      match l, h with
      | [], _ => simp [KeySorted]
      | [a], _ => simp [KeySorted]
    · simp only [h, if_neg, not_false_iff]
      have h2 : 2 ≤ l.length := by omega
      have htake : (l.take (l.length / 2)).length ≤ f := by
        simp only [List.length_take]
        omega
      have hdrop : (l.drop (l.length / 2)).length ≤ f := by
        simp only [List.length_drop]
        omega
      refine mergeFuel_sorted l.length _ _ ?_ (ih _ htake) (ih _ hdrop)
      have e1 := (mergesortFuel_perm keyLE f (l.take (l.length / 2))).length_eq
      have e2 := (mergesortFuel_perm keyLE f (l.drop (l.length / 2))).length_eq
      simp only [e1, e2, List.length_take, List.length_drop]
      omega

theorem mergesort_sorted {α : Type} (l : List (ℚ × α)) : KeySorted (mergesort l) :=
  mergesortFuel_sorted l.length l le_rfl

/-! ### Binary search tree

Modelled from the spec (`data_structures/bst.py` is not in the
repository): a binary search tree over totally ordered keys supporting
insert, delete-by-key, and in-order traversal.  Per the spec's data
model, keys need not be unique and ties are broken by insertion order:
all keys in the left subtree are strictly below the node key and all
keys in the right subtree are at or above it, so a duplicate key is
inserted into the right subtree and the first-inserted node with a given
key is the topmost (and in-order first) one. -/

inductive BTree (α : Type) where
  | leaf
  | node (key : ℚ) (item : α) (left right : BTree α)
deriving DecidableEq, Repr

namespace BTree

/-- In-order traversal, as the list of (key, item) pairs in ascending
key order.  This embeds iteration over the Python tree. -/
def inorder {α : Type} : BTree α → List (ℚ × α)
  | leaf => []
  | node k i l r => inorder l ++ (k, i) :: inorder r

/-- Number of nodes; embeds `len(tree)`. -/
def size {α : Type} : BTree α → ℕ
  | leaf => 0
  | node _ _ l r => size l + size r + 1

theorem size_eq_length_inorder {α : Type} (t : BTree α) :
    t.size = t.inorder.length := by
  induction t with
  | leaf => simp [size, inorder]
  | node k i l r ihl ihr => simp [size, inorder, ihl, ihr]; omega

/-- Ordinary BST insertion; embeds `__setitem__`.  A key smaller than
the node key goes left, any other key goes right. -/
def insert {α : Type} (k : ℚ) (i : α) : BTree α → BTree α
  | leaf => node k i leaf leaf
  | node k' i' l r =>
    if k < k' then node k' i' (insert k i l) r
    else node k' i' l (insert k i r)

/-- The binary-search-tree invariant: left keys strictly below the node
key, right keys at or above it, recursively. -/
def Inv {α : Type} : BTree α → Prop
  | leaf => True
  | node k _ l r =>
    (∀ p ∈ inorder l, p.1 < k) ∧ (∀ p ∈ inorder r, k ≤ p.1) ∧ Inv l ∧ Inv r

theorem inorder_insert_perm {α : Type} (k : ℚ) (i : α) (t : BTree α) :
    (insert k i t).inorder.Perm ((k, i) :: t.inorder) := by
  induction t with
  | leaf => simp [insert, inorder]
  | node k' i' l r ihl ihr =>
    by_cases h : k < k'
    · simp only [insert, h, if_pos, inorder]
      exact (ihl.append_right _).trans List.Perm.rfl
    · simp only [insert, h, if_neg, not_false_iff, inorder]
      refine (List.Perm.append_left _ (ihr.cons (k', i'))).trans ?_
      have hm := @List.perm_middle _ (k, i) (inorder l ++ [(k', i')]) (inorder r)
      simpa [List.append_assoc] using hm

theorem mem_inorder_insert {α : Type} {k : ℚ} {i : α} {t : BTree α}
    {p : ℚ × α} (hp : p ∈ (insert k i t).inorder) :
    p = (k, i) ∨ p ∈ t.inorder := by
  have := (inorder_insert_perm k i t).mem_iff.mp hp
  simpa using this

theorem insert_inv {α : Type} {t : BTree α} (k : ℚ) (i : α) (h : Inv t) :
    Inv (insert k i t) := by
  induction t with
  | leaf => simp [insert, Inv, inorder]
  | node k' i' l r ihl ihr =>
    obtain ⟨hl, hr, hil, hir⟩ := h
    by_cases hk : k < k'
    · simp only [insert, hk, if_pos, Inv]
      refine ⟨?_, hr, ihl hil, hir⟩
      intro p hp
      rcases mem_inorder_insert hp with rfl | hp'
      · exact hk
      · exact hl p hp'
    · simp only [insert, hk, if_neg, not_false_iff, Inv]
      refine ⟨hl, ?_, hil, ihr hir⟩
      intro p hp
      rcases mem_inorder_insert hp with rfl | hp'
      · exact le_of_not_lt hk
      · exact hr p hp'

theorem inv_keySorted {α : Type} {t : BTree α} (h : Inv t) :
    KeySorted t.inorder := by
  induction t with
  | leaf => simp [inorder, KeySorted]
  | node k i l r ihl ihr =>
    obtain ⟨hl, hr, hil, hir⟩ := h
    simp only [inorder, KeySorted, List.pairwise_append, List.pairwise_cons]
    refine ⟨ihl hil, ⟨fun p hp => (hr p hp), ihr hir⟩, ?_⟩
    intro a ha b hb
    rcases List.mem_cons.mp hb with rfl | hb'
    · exact (hl a ha).le
    · exact (hl a ha).le.trans (hr b hb')

/-- Remove the node with the greatest key (the rightmost node),
returning the remaining tree and the removed (key, item) pair; `none`
on the empty tree.  Used by delete-by-key to promote the in-order
predecessor. -/
def extractMax {α : Type} : BTree α → Option (BTree α × ℚ × α)
  | leaf => none
  | node k i l r =>
    match extractMax r with
    | none => some (l, k, i)
    | some (r', k', i') => some (node k i l r', k', i')

theorem extractMax_eq_none_iff {α : Type} (t : BTree α) :
    extractMax t = none ↔ t = leaf := by
  cases t with
  | leaf => simp [extractMax]
  | node k i l r =>
    simp only [extractMax]
    cases extractMax r <;> simp

theorem extractMax_inorder {α : Type} {t t' : BTree α} {k : ℚ} {i : α}
    (h : extractMax t = some (t', k, i)) :
    t.inorder = t'.inorder ++ [(k, i)] := by
  induction t generalizing t' k i with
  | leaf => simp [extractMax] at h
  | node k0 i0 l r ihl ihr =>
    simp only [extractMax] at h
    cases hr : extractMax r with
    | none =>
      rw [hr] at h
      obtain rfl : t' = l := by injection h with h1; injection h1 with h2 h3; exact h2.symm
      have : r = leaf := (extractMax_eq_none_iff r).mp hr
      subst this
      simp only [extractMax] at h
      injection h with h1
      injection h1 with h2 h3
      injection h3 with h4 h5
      subst h4; subst h5
      simp [inorder]
    | some v =>
      obtain ⟨r', k', i'⟩ := v
      rw [hr] at h
      injection h with h1
      injection h1 with h2 h3
      injection h3 with h4 h5
      subst h2; subst h4; subst h5
      simp only [inorder, ihr hr]
      simp

/-- Delete the first node found with the given key, embedding the
Python `__delitem__`: search by key; at the matching node, promote the
in-order predecessor (maximum of the left subtree) if the left subtree
is nonempty, otherwise replace the node by its right subtree.  Deleting
an absent key leaves the tree unchanged (the Python code raises, but
the repository only ever deletes keys just found in the tree). -/
def delByKey {α : Type} (k : ℚ) : BTree α → BTree α
  | leaf => leaf
  | node k' i' l r =>
    if k < k' then node k' i' (delByKey k l) r
    else if k' < k then node k' i' l (delByKey k r)
    else
      match extractMax l with
      | none => r
      | some (l', km, im) => node km im l' r

/-- Predicate selecting the pairs whose key equals `k`. -/
def keyIs {α : Type} (k : ℚ) (p : ℚ × α) : Bool := p.1 = k

theorem inorder_delByKey {α : Type} (k : ℚ) (t : BTree α) (h : Inv t) :
    (delByKey k t).inorder = t.inorder.eraseP (keyIs k) := by
  induction t with
  | leaf => simp [delByKey, inorder]
  | node k' i' l r ihl ihr =>
    obtain ⟨hl, hr, hil, hir⟩ := h
    rcases lt_trichotomy k k' with hk | hk | hk
    · simp only [delByKey, hk, if_pos, inorder]
      rw [ihl hil]
      by_cases hm : ∃ p ∈ l.inorder, keyIs k p
      · obtain ⟨p, hp, hkp⟩ := hm
        rw [List.eraseP_append_left hkp _ hp]
      · push_neg at hm
        have h1 : l.inorder.eraseP (keyIs k) = l.inorder :=
          List.eraseP_of_forall_not (fun a ha => by
            simpa using hm a ha)
        rw [h1, List.eraseP_append_right]
        · have h2 : List.eraseP (keyIs k) ((k', i') :: r.inorder)
              = (k', i') :: r.inorder := by
            refine List.eraseP_of_forall_not ?_
            intro a ha
            rcases List.mem_cons.mp ha with rfl | ha'
            · simp [keyIs]; exact fun e => absurd e (ne_of_gt hk)
            · have := hr a ha'
              simp only [keyIs, decide_eq_true_eq]
              intro e
              rw [e] at this
              exact absurd (hk.trans_le this) (lt_irrefl k)
          rw [h2]
        · intro b hb
          simpa using hm b hb
    · subst hk
      simp only [delByKey, lt_irrefl, if_neg, not_false_iff, inorder]
      have hnol : ∀ b ∈ l.inorder, ¬ (keyIs k b = true) := by
        intro b hb
        simp only [keyIs, decide_eq_true_eq]
        intro e
        exact absurd e (ne_of_lt (hl b hb))
      rw [List.eraseP_append_right _ hnol]
      have hhead : List.eraseP (keyIs k) ((k, i') :: r.inorder) = r.inorder := by
        rw [List.eraseP_cons]
        simp [keyIs]
      rw [hhead]
      cases hx : extractMax l with
      | none =>
        have : l = leaf := (extractMax_eq_none_iff l).mp hx
        subst this
        simp [inorder]
      | some v =>
        obtain ⟨l', km, im⟩ := v
        have := extractMax_inorder hx
        simp only [inorder, this]
        simp
    · simp only [delByKey, hk, if_neg, not_lt_of_gt hk, if_pos, inorder]
      have hnol : ∀ b ∈ l.inorder, ¬ (keyIs k b = true) := by
        intro b hb
        simp only [keyIs, decide_eq_true_eq]
        intro e
        exact absurd e (ne_of_lt ((hl b hb).trans hk))
      rw [List.eraseP_append_right _ hnol]
      have hhead : List.eraseP (keyIs k) ((k', i') :: r.inorder)
          = (k', i') :: r.inorder.eraseP (keyIs k) := by
        rw [List.eraseP_cons]
        simp only [keyIs, decide_eq_true_eq]
        have : ¬ (k' = k) := ne_of_lt hk
        simp [this]
      rw [hhead, ihr hir]

end BTree

/-- The binary-search-tree invariant exactly as the spec's data model
states it: all keys in the left subtree are at or below the node key
and all keys in the right subtree are at or above it, recursively.
Unlike the strict variant `BTree.Inv` established by insertion, this
weak form is also preserved by `delByKey` when duplicate keys are
present, so it holds of every hollow state reachable by any number of
extractions. -/
def BTree.WInv {α : Type} : BTree α → Prop
  | BTree.leaf => True
  | BTree.node k _ l r =>
    (∀ p ∈ BTree.inorder l, p.1 ≤ k) ∧ (∀ p ∈ BTree.inorder r, k ≤ p.1)
      ∧ BTree.WInv l ∧ BTree.WInv r

theorem BTree.winv_of_inv {α : Type} {t : BTree α} (h : BTree.Inv t) :
    BTree.WInv t := by
  induction t with
  | leaf => trivial
  | node k i l r ihl ihr =>
    obtain ⟨hl, hr, hil, hir⟩ := h
    exact ⟨fun p hp => (hl p hp).le, hr, ihl hil, ihr hir⟩

theorem BTree.mem_inorder_extractMax {α : Type} {t t' : BTree α} {k : ℚ}
    {i : α} (h : BTree.extractMax t = some (t', k, i)) :
    ∀ p ∈ t'.inorder, p ∈ t.inorder := by
  intro p hp
  rw [BTree.extractMax_inorder h]
  exact List.mem_append_left _ hp

theorem BTree.extractMax_mem {α : Type} {t t' : BTree α} {k : ℚ} {i : α}
    (h : BTree.extractMax t = some (t', k, i)) : (k, i) ∈ t.inorder := by
  rw [BTree.extractMax_inorder h]
  simp

theorem BTree.extractMax_size {α : Type} {t t' : BTree α} {k : ℚ} {i : α}
    (h : BTree.extractMax t = some (t', k, i)) : t'.size + 1 = t.size := by
  rw [BTree.size_eq_length_inorder, BTree.size_eq_length_inorder,
    BTree.extractMax_inorder h]
  simp

theorem BTree.extractMax_winv {α : Type} :
    ∀ (t : BTree α) {t' : BTree α} {k : ℚ} {i : α}, BTree.WInv t →
      BTree.extractMax t = some (t', k, i) → BTree.WInv t' := by
  intro t
  induction t with
  | leaf =>
    intro t' k i _ h
    simp [BTree.extractMax] at h
  | node k0 i0 l r ihl ihr =>
    intro t' k i hw h
    obtain ⟨hl, hr, hwl, hwr⟩ := hw
    simp only [BTree.extractMax] at h
    cases hr' : BTree.extractMax r with
    | none =>
      rw [hr'] at h
      injection h with h1
      injection h1 with h2 h3
      subst h2
      exact hwl
    | some v =>
      obtain ⟨r', k', i'⟩ := v
      rw [hr'] at h
      injection h with h1
      injection h1 with h2 h3
      subst h2
      exact ⟨hl, fun p hp => hr p (BTree.mem_inorder_extractMax hr' p hp),
        hwl, ihr hwr hr'⟩

theorem BTree.winv_keySorted {α : Type} {t : BTree α} (h : BTree.WInv t) :
    KeySorted t.inorder := by
  induction t with
  | leaf => simp [BTree.inorder, KeySorted]
  | node k i l r ihl ihr =>
    obtain ⟨hl, hr, hwl, hwr⟩ := h
    simp only [BTree.inorder, KeySorted, List.pairwise_append,
      List.pairwise_cons]
    refine ⟨ihl hwl, ⟨fun p hp => hr p hp, ihr hwr⟩, ?_⟩
    intro a ha b hb
    rcases List.mem_cons.mp hb with rfl | hb'
    · exact hl a ha
    · exact (hl a ha).trans (hr b hb')

theorem BTree.mem_inorder_delByKey {α : Type} (k : ℚ) :
    ∀ (t : BTree α), ∀ p ∈ (BTree.delByKey k t).inorder, p ∈ t.inorder := by
  intro t
  induction t with
  | leaf => simp [BTree.delByKey]
  | node k' i' l r ihl ihr =>
    intro p hp
    rcases lt_trichotomy k k' with hk | hk | hk
    · simp only [BTree.delByKey, hk, if_pos, BTree.inorder] at hp
      simp only [BTree.inorder]
      rcases List.mem_append.mp hp with hp1 | hp2
      · exact List.mem_append_left _ (ihl p hp1)
      · exact List.mem_append_right _ hp2
    · subst hk
      simp only [BTree.delByKey, lt_irrefl, if_neg, not_false_iff] at hp
      simp only [BTree.inorder]
      cases hx : BTree.extractMax l with
      | none =>
        rw [hx] at hp
        exact List.mem_append_right _ (List.mem_cons_of_mem _ hp)
      | some v =>
        obtain ⟨l', km, im⟩ := v
        rw [hx] at hp
        simp only [BTree.inorder] at hp
        rcases List.mem_append.mp hp with hp1 | hp2
        · exact List.mem_append_left _ (BTree.mem_inorder_extractMax hx p hp1)
        · rcases List.mem_cons.mp hp2 with rfl | hp3
          · exact List.mem_append_left _ (BTree.extractMax_mem hx)
          · exact List.mem_append_right _ (List.mem_cons_of_mem _ hp3)
    · simp only [BTree.delByKey, not_lt_of_gt hk, if_neg, not_false_iff, hk,
        if_pos, BTree.inorder] at hp
      simp only [BTree.inorder]
      rcases List.mem_append.mp hp with hp1 | hp2
      · exact List.mem_append_left _ hp1
      · rcases List.mem_cons.mp hp2 with rfl | hp3
        · exact List.mem_append_right _ (List.mem_cons_self _ _)
        · exact List.mem_append_right _ (List.mem_cons_of_mem _ (ihr p hp3))

theorem BTree.delByKey_winv {α : Type} (k : ℚ) :
    ∀ {t : BTree α}, BTree.WInv t → BTree.WInv (BTree.delByKey k t) := by
  intro t
  induction t with
  | leaf =>
    intro _
    simp [BTree.delByKey, BTree.WInv]
  | node k' i' l r ihl ihr =>
    intro hw
    obtain ⟨hl, hr, hwl, hwr⟩ := hw
    rcases lt_trichotomy k k' with hk | hk | hk
    · simp only [BTree.delByKey, hk, if_pos]
      exact ⟨fun p hp => hl p (BTree.mem_inorder_delByKey k l p hp), hr,
        ihl hwl, hwr⟩
    · subst hk
      simp only [BTree.delByKey, lt_irrefl, if_neg, not_false_iff]
      cases hx : BTree.extractMax l with
      | none => exact hwr
      | some v =>
        obtain ⟨l', km, im⟩ := v
        refine ⟨?_, ?_, BTree.extractMax_winv l hwl hx, hwr⟩
        · have hs := BTree.winv_keySorted hwl
          rw [BTree.extractMax_inorder hx, KeySorted, List.pairwise_append] at hs
          intro p hp
          exact hs.2.2 p hp (km, im) (List.mem_singleton_self _)
        · have hkm : km ≤ k := hl (km, im) (BTree.extractMax_mem hx)
          intro p hp
          exact hkm.trans (hr p hp)
    · simp only [BTree.delByKey, not_lt_of_gt hk, if_neg, not_false_iff, hk,
        if_pos]
      exact ⟨hl, fun p hp => hr p (BTree.mem_inorder_delByKey k r p hp),
        hwl, ihr hwr⟩

theorem BTree.delByKey_size {α : Type} (k : ℚ) :
    ∀ {t : BTree α}, BTree.WInv t → (∃ i, (k, i) ∈ t.inorder) →
      (BTree.delByKey k t).size + 1 = t.size := by
  intro t
  induction t with
  | leaf =>
    intro _ hmem
    obtain ⟨i, hi⟩ := hmem
    simp [BTree.inorder] at hi
  | node k' i' l r ihl ihr =>
    intro hw hmem
    obtain ⟨i, hi⟩ := hmem
    obtain ⟨hl, hr, hwl, hwr⟩ := hw
    rcases lt_trichotomy k k' with hk | hk | hk
    · have hmeml : (k, i) ∈ l.inorder := by
        simp only [BTree.inorder, List.mem_append, List.mem_cons] at hi
        rcases hi with h1 | h2 | h3
        · exact h1
        · exact absurd (congrArg Prod.fst h2) (ne_of_lt hk)
        · exact absurd (hr (k, i) h3) (not_le_of_gt hk)
      simp only [BTree.delByKey, hk, if_pos, BTree.size]
      have := ihl hwl ⟨i, hmeml⟩
      omega
    · subst hk
      simp only [BTree.delByKey, lt_irrefl, if_neg, not_false_iff]
      cases hx : BTree.extractMax l with
      | none =>
        have hleaf : l = BTree.leaf := (BTree.extractMax_eq_none_iff l).mp hx
        subst hleaf
        simp [BTree.size]
      | some v =>
        obtain ⟨l', km, im⟩ := v
        have hsz := BTree.extractMax_size hx
        simp only [BTree.size]
        omega
    · have hmemr : (k, i) ∈ r.inorder := by
        simp only [BTree.inorder, List.mem_append, List.mem_cons] at hi
        rcases hi with h1 | h2 | h3
        · exact absurd (hl (k, i) h1) (not_le_of_gt hk)
        · exact absurd (congrArg Prod.fst h2) (ne_of_gt hk)
        · exact h3
      simp only [BTree.delByKey, not_lt_of_gt hk, if_neg, not_false_iff, hk,
        if_pos, BTree.size]
      have := ihr hwr ⟨i, hmemr⟩
      omega

/-! ### BetterBST construction (`betterbst.py`) -/

theorem fdiv_two_bounds (s e : ℤ) (h : s ≤ e) :
    s ≤ (s + e).fdiv 2 ∧ (s + e).fdiv 2 ≤ e := by
  rw [Int.fdiv_eq_ediv _ (by norm_num)]
  omega

/-- Embeds `BetterBST.build_tree_aux`: recursively insert the element at
the midpoint `(start+end) // 2` of the sub-range `[start, end]` of the
sorted list, then recurse on `[start, mid-1]` and `[mid+1, end]`.  An
empty range (`start > end`) is a no-op.  Python's floor division on
ints is `Int.fdiv`.  An out-of-range midpoint (never produced by
`__build_balanced_tree`) is a no-op as well.  `fuel` bounds the
recursion depth (the range size shrinks at every call, so any fuel
above the initial range size is never exhausted). -/
def build_tree_aux {α : Type} (l : List (ℚ × α)) :
    ℕ → BTree α → ℤ → ℤ → BTree α
  | 0, t, _, _ => t
  | f + 1, t, s, e =>
    if e < s then t
    else
      match l.get? ((s + e).fdiv 2).toNat with
      | none => t
      | some (k, i) =>
        build_tree_aux l f
          (build_tree_aux l f (t.insert k i) s ((s + e).fdiv 2 - 1))
          ((s + e).fdiv 2 + 1) e

/-- Embeds `BetterBST.__build_balanced_tree`: build from the whole range
`[0, len(elements) - 1]`. -/
def buildBalancedTree {α : Type} (elements : List (ℚ × α)) : BTree α :=
  build_tree_aux elements (elements.length + 1) BTree.leaf 0
    ((elements.length : ℤ) - 1)

/-- Embeds `BetterBST.__init__`: sort the elements with mergesort, then
build a balanced tree from the sorted list. -/
def betterBST {α : Type} (elements : List (ℚ × α)) : BTree α :=
  buildBalancedTree (mergesort elements)

/-- The sub-range `[s, e]` of a list (both ends inclusive, `ℤ` indices),
used to state what `build_tree_aux` inserts. -/
def sliceIE {α : Type} (l : List α) (s e : ℤ) : List α :=
  (l.drop s.toNat).take (e + 1 - s).toNat


theorem sliceIE_split {α : Type} (l : List α) (s e : ℤ)
    (h0 : 0 ≤ s) (hse : s ≤ e) (he : e < l.length) {x : α}
    (hx : l.get? ((s + e).fdiv 2).toNat = some x) :
    sliceIE l s e
      = sliceIE l s ((s + e).fdiv 2 - 1) ++ x :: sliceIE l ((s + e).fdiv 2 + 1) e := by
  have hb := fdiv_two_bounds s e hse
  set m := (s + e).fdiv 2 with hm
  have h1 : (e + 1 - s).toNat = (m - s).toNat + (e + 1 - m).toNat := by omega
  have h2 : sliceIE l s e
      = ((l.drop s.toNat).take (m - s).toNat)
        ++ (((l.drop s.toNat).drop (m - s).toNat).take (e + 1 - m).toNat) := by
    rw [sliceIE, h1, List.take_add]
  have h3 : (l.drop s.toNat).drop (m - s).toNat = l.drop m.toNat := by
    rw [List.drop_drop]
    congr 1
    omega
  have hmlen : m.toNat < l.length := by omega
  have hgetx : l[m.toNat] = x := by
    have h6 := List.get?_eq_getElem? l m.toNat
    rw [h6, List.getElem?_eq_getElem hmlen] at hx
    injection hx with hx'
  have h4 : l.drop m.toNat = x :: l.drop (m.toNat + 1) := by
    rw [List.drop_eq_getElem_cons hmlen, hgetx]
  have h5 : (e + 1 - m).toNat = (e - m).toNat + 1 := by omega
  have ha : sliceIE l s (m - 1) = (l.drop s.toNat).take (m - s).toNat := by
    simp only [sliceIE]
    congr 1
    omega
  have hb2 : sliceIE l (m + 1) e = (l.drop (m.toNat + 1)).take (e - m).toNat := by
    simp only [sliceIE]
    have e1 : (m + 1).toNat = m.toNat + 1 := by omega
    have e2 : (e + 1 - (m + 1)).toNat = (e - m).toNat := by omega
    rw [e1, e2]
  rw [h2, h3, h4, h5, List.take_succ_cons, ha, hb2]

theorem perm_glue {α : Type} (A B T : List α) (p : α) :
    (B ++ (A ++ p :: T)).Perm ((A ++ p :: B) ++ T) := by
  have l1 : (B ++ (A ++ p :: T)).Perm (p :: (B ++ (A ++ T))) :=
    (List.Perm.append_left B (@List.perm_middle _ p A T)).trans
      (@List.perm_middle _ p B (A ++ T))
  have l2 : ((A ++ p :: B) ++ T).Perm (p :: (A ++ (B ++ T))) := by
    have heq : (A ++ p :: B) ++ T = A ++ p :: (B ++ T) := by
      simp [List.append_assoc]
    rw [heq]
    exact (@List.perm_middle _ p A (B ++ T))
  refine l1.trans (List.Perm.trans ?_ l2.symm)
  refine List.Perm.cons p ?_
  have s1 : (B ++ (A ++ T)).Perm ((B ++ A) ++ T) := by
    rw [List.append_assoc]
  have s2 : ((B ++ A) ++ T).Perm ((A ++ B) ++ T) :=
    List.Perm.append_right T List.perm_append_comm
  have s3 : ((A ++ B) ++ T).Perm (A ++ (B ++ T)) := by
    rw [List.append_assoc]
  exact (s1.trans s2).trans s3

theorem build_tree_aux_perm {α : Type} (l : List (ℚ × α)) :
    ∀ (f : ℕ) (s e : ℤ) (t : BTree α), (e + 1 - s).toNat < f →
      0 ≤ s → e < l.length →
      (build_tree_aux l f t s e).inorder.Perm (sliceIE l s e ++ t.inorder) := by
  intro f
  induction f with
  | zero =>
    intro s e t hf
    omega
  | succ f ih =>
    intro s e t hf h0 he
    by_cases hse : e < s
    · simp only [build_tree_aux, hse, if_pos]
      have hnil : sliceIE l s e = [] := by
        rw [sliceIE]
        have hz : (e + 1 - s).toNat = 0 := by omega
        rw [hz, List.take_zero]
      rw [hnil, List.nil_append]
    · have hb := fdiv_two_bounds s e (le_of_not_lt hse)
      simp only [build_tree_aux, hse, if_neg, not_false_iff]
      have hmlen : ((s + e).fdiv 2).toNat < l.length := by omega
      have hget : ∃ x, l.get? ((s + e).fdiv 2).toNat = some x := by
        rw [List.get?_eq_getElem?, List.getElem?_eq_getElem hmlen]
        exact ⟨_, rfl⟩
      obtain ⟨⟨k, i⟩, hx⟩ := hget
      rw [hx]
      have hrec1 : (build_tree_aux l f (t.insert k i) s ((s + e).fdiv 2 - 1)).inorder.Perm
          (sliceIE l s ((s + e).fdiv 2 - 1) ++ (t.insert k i).inorder) :=
        ih s _ _ (by omega) h0 (by omega)
      have hrec2 := ih ((s + e).fdiv 2 + 1) e
        (build_tree_aux l f (t.insert k i) s ((s + e).fdiv 2 - 1))
        (by omega) (by omega) he
      refine hrec2.trans ?_
      rw [sliceIE_split l s e h0 (le_of_not_lt hse) he hx]
      have step1 : (sliceIE l ((s + e).fdiv 2 + 1) e
            ++ (build_tree_aux l f (t.insert k i) s ((s + e).fdiv 2 - 1)).inorder).Perm
          (sliceIE l ((s + e).fdiv 2 + 1) e
            ++ (sliceIE l s ((s + e).fdiv 2 - 1) ++ ((k, i) :: t.inorder))) := by
        refine List.Perm.append_left _ (hrec1.trans ?_)
        exact List.Perm.append_left _ (BTree.inorder_insert_perm k i t)
      exact step1.trans (perm_glue _ _ _ _)

theorem build_tree_aux_inv {α : Type} (l : List (ℚ × α)) :
    ∀ (f : ℕ) (s e : ℤ) (t : BTree α), BTree.Inv t →
      BTree.Inv (build_tree_aux l f t s e) := by
  intro f
  induction f with
  | zero =>
    intro s e t hinv
    simpa [build_tree_aux] using hinv
  | succ f ih =>
    intro s e t hinv
    by_cases hse : e < s
    · simpa [build_tree_aux, hse] using hinv
    · simp only [build_tree_aux, hse, if_neg, not_false_iff]
      cases hx : l.get? ((s + e).fdiv 2).toNat with
      | none => exact hinv
      | some v =>
        obtain ⟨k, i⟩ := v
        exact ih _ _ _ (ih _ _ _ (BTree.insert_inv k i hinv))

theorem sliceIE_full {α : Type} (l : List α) :
    sliceIE l 0 ((l.length : ℤ) - 1) = l := by
  rw [sliceIE]
  simp only [Int.toNat_zero, List.drop_zero]
  have hlen : ((l.length : ℤ) - 1 + 1 - 0).toNat = l.length := by omega
  rw [hlen, List.take_length]

theorem buildBalancedTree_perm {α : Type} (elements : List (ℚ × α)) :
    (buildBalancedTree elements).inorder.Perm elements := by
  have h := build_tree_aux_perm elements (elements.length + 1) 0
    ((elements.length : ℤ) - 1) BTree.leaf (by omega) (le_refl 0) (by omega)
  rw [sliceIE_full] at h
  simpa [BTree.inorder, buildBalancedTree] using h

theorem buildBalancedTree_inv {α : Type} (elements : List (ℚ × α)) :
    BTree.Inv (buildBalancedTree elements) :=
  build_tree_aux_inv elements (elements.length + 1) 0
    ((elements.length : ℤ) - 1) BTree.leaf trivial

theorem betterBST_perm {α : Type} (elements : List (ℚ × α)) :
    (betterBST elements).inorder.Perm elements :=
  (buildBalancedTree_perm (mergesort elements)).trans (mergesort_perm elements)

theorem betterBST_inv {α : Type} (elements : List (ℚ × α)) :
    BTree.Inv (betterBST elements) :=
  buildBalancedTree_inv (mergesort elements)

/-! ### Spooky hollow (`hollows.py`, tree-backed strategy) -/

/-- Embeds `SpookyHollow.restructure_hollow`: map each treasure to the
pair (negated value/weight ratio, treasure) and build a `BetterBST`
from the list of pairs. -/
def restructureSpookyHollow (ts : List Treasure) : BTree Treasure :=
  betterBST (ts.map (fun t => (-(t.value / t.weight), t)))

/-- Embeds `SpookyHollow.get_optimal_treasure`: walk the tree in-order,
take the first node whose treasure fits the backpack capacity, and
delete that node's key from the tree; return `none` and leave the tree
unchanged when nothing fits.  The pair returned is (result, tree after
the call). -/
def getOptimalTreasureSpooky (cap : ℚ) (tr : BTree Treasure) :
    Option Treasure × BTree Treasure :=
  match tr.inorder.find? (fun p => p.2.weight ≤ cap) with
  | none => (none, tr)
  | some (k, t) => (some t, tr.delByKey k)

theorem restructureSpookyHollow_inv (ts : List Treasure) :
    BTree.Inv (restructureSpookyHollow ts) :=
  betterBST_inv _

theorem restructureSpookyHollow_perm (ts : List Treasure) :
    (restructureSpookyHollow ts).inorder.Perm
      (ts.map (fun t => (-(t.value / t.weight), t))) :=
  betterBST_perm _

/-! ### Max-heap and mystical hollow (`hollows.py`, heap-backed strategy)

Modelled from the spec (`data_structures/heap.py` is not in the
repository): an array-backed binary max-heap over (key, item) pairs.
We embed the heap at the level of its contract — the content is the
list of stored entries, `heapify` stores all entries, `get_max` removes
and returns an entry with maximal key, `add` inserts an entry — which
determines every multiset-level fact the repository relies on. -/

/-- Extract an entry with maximal key (the first such entry), returning
it together with the remaining entries; `none` on an empty heap.
Models `MaxHeap.get_max`. -/
def getMax {α : Type} : List (ℚ × α) → Option ((ℚ × α) × List (ℚ × α))
  | [] => none
  | e :: es =>
    match getMax es with
    | none => some (e, [])
    | some (m, rest) => if m.1 > e.1 then some (m, e :: rest) else some (e, es)

/-- Models `MaxHeap.add`: insert one entry. -/
def heapAdd {α : Type} (h : List (ℚ × α)) (e : ℚ × α) : List (ℚ × α) :=
  h ++ [e]

/-- Models `MaxHeap.heapify`: bulk-build a heap holding the given
entries. -/
def heapify {α : Type} (l : List (ℚ × α)) : List (ℚ × α) := l

theorem getMax_eq_none_iff {α : Type} (l : List (ℚ × α)) :
    getMax l = none ↔ l = [] := by
  cases l with
  | nil => simp [getMax]
  | cons e es =>
    simp only [getMax]
    cases getMax es with
    | none => simp
    | some v =>
      obtain ⟨m, rest⟩ := v
      by_cases h : m.1 > e.1 <;> simp [h]

theorem getMax_spec {α : Type} :
    ∀ (l : List (ℚ × α)) (e : ℚ × α) (rest : List (ℚ × α)),
      getMax l = some (e, rest) →
      l.Perm (e :: rest) ∧ (∀ p ∈ rest, p.1 ≤ e.1) := by
  intro l
  induction l with
  | nil => intro e rest h; simp [getMax] at h
  | cons a as ih =>
    intro e rest h
    simp only [getMax] at h
    cases hm : getMax as with
    | none =>
      rw [hm] at h
      have hnil : as = [] := (getMax_eq_none_iff as).mp hm
      subst hnil
      injection h with h1
      injection h1 with h2 h3
      subst h2; subst h3
      exact ⟨List.Perm.rfl, by simp⟩
    | some v =>
      obtain ⟨m, mrest⟩ := v
      rw [hm] at h
      replace h : (if m.1 > a.1 then some (m, a :: mrest) else some (a, as))
          = some (e, rest) := h
      obtain ⟨hperm, hmax⟩ := ih m mrest hm
      by_cases hc : m.1 > a.1
      · rw [if_pos hc] at h
        injection h with h1
        injection h1 with h2 h3
        subst h2; subst h3
        constructor
        · refine (hperm.cons a).trans ?_
          exact List.Perm.swap _ _ _
        · intro p hp
          rcases List.mem_cons.mp hp with rfl | hp'
          · exact hc.le
          · exact hmax p hp'
      · rw [if_neg hc] at h
        injection h with h1
        injection h1 with h2 h3
        subst h2; subst h3
        refine ⟨List.Perm.rfl, ?_⟩
        intro p hp
        have hp2 := hperm.mem_iff.mp hp
        rcases List.mem_cons.mp hp2 with rfl | hp'
        · exact le_of_not_lt hc
        · exact (hmax p hp').trans (le_of_not_lt hc)

theorem getMax_length {α : Type} {l : List (ℚ × α)} {e : ℚ × α}
    {rest : List (ℚ × α)} (h : getMax l = some (e, rest)) :
    rest.length + 1 = l.length := by
  have := (getMax_spec l e rest h).1.length_eq
  simpa using this.symm

/-- Embeds `MysticalHollow.restructure_hollow`: map each treasure to the
pair (value/weight ratio, treasure) and heapify. -/
def restructureMysticalHollow (ts : List Treasure) : List (ℚ × Treasure) :=
  heapify (ts.map (fun t => (t.value / t.weight, t)))

/-- Embeds the `while` loop of `MysticalHollow.get_optimal_treasure`:
repeatedly `get_max`; stop with the extracted treasure if it fits the
capacity, otherwise append the extracted entry to the temporary storage
and continue; stop with `none` when the heap empties.  Returns (result,
remaining heap, temporary storage).  `fuel` bounds the number of
iterations; each iteration removes one entry, so any fuel at or above
the heap size is never exhausted (at fuel 0 the heap is already empty
and the fuel branch coincides with the empty-heap branch). -/
def mysticalLoop (cap : ℚ) : ℕ → List (ℚ × Treasure) → List (ℚ × Treasure) →
    Option Treasure × List (ℚ × Treasure) × List (ℚ × Treasure)
  | 0, heap, temp => (none, heap, temp)
  | f + 1, heap, temp =>
    match getMax heap with
    | none => (none, heap, temp)
    | some (e, rest) =>
      if e.2.weight ≤ cap then (some e.2, rest, temp)
      else mysticalLoop cap f rest (temp ++ [e])

/-- Embeds `MysticalHollow.get_optimal_treasure`: run the extraction
loop with empty temporary storage, then add every held entry back into
the heap.  The pair returned is (result, heap after the call). -/
def getOptimalTreasureMystical (cap : ℚ) (heap : List (ℚ × Treasure)) :
    Option Treasure × List (ℚ × Treasure) :=
  match mysticalLoop cap heap.length heap [] with
  | (opt, h, temp) => (opt, temp.foldl heapAdd h)

theorem foldl_heapAdd {α : Type} :
    ∀ (temp h : List (ℚ × α)), temp.foldl heapAdd h = h ++ temp := by
  intro temp
  induction temp with
  | nil => intro h; simp
  | cons e es ih =>
    intro h
    simp only [List.foldl_cons, ih, heapAdd]
    simp

theorem mysticalLoop_spec (cap : ℚ) :
    ∀ (f : ℕ) (heap temp : List (ℚ × Treasure)), heap.length ≤ f →
      (∀ t h' temp', mysticalLoop cap f heap temp = (some t, h', temp') →
        ∃ r rej, temp' = temp ++ rej
          ∧ heap.Perm (rej ++ (r, t) :: h')
          ∧ t.weight ≤ cap
          ∧ (∀ e ∈ rej, ¬ e.2.weight ≤ cap)
          ∧ (∀ e ∈ h', e.1 ≤ r)
          ∧ (∀ e ∈ rej, r ≤ e.1))
      ∧ (∀ h' temp', mysticalLoop cap f heap temp = (none, h', temp') →
        h' = [] ∧ ∃ rej, temp' = temp ++ rej ∧ heap.Perm rej
          ∧ (∀ e ∈ rej, ¬ e.2.weight ≤ cap)) := by
  intro f
  induction f with
  | zero =>
    intro heap temp hlen
    have hnil : heap = [] := List.length_eq_zero.mp (Nat.le_zero.mp hlen)
    subst hnil
    constructor
    · intro t h' temp' hEq
      simp only [mysticalLoop] at hEq
      exact absurd (congrArg Prod.fst hEq) (by simp)
    · intro h' temp' hEq
      simp only [mysticalLoop] at hEq
      injection hEq with h1 h2
      injection h2 with h3 h4
      subst h3; subst h4
      exact ⟨rfl, [], by simp⟩
  | succ f ih =>
    intro heap temp hlen
    cases hg : getMax heap with
    | none =>
      have hnil : heap = [] := (getMax_eq_none_iff heap).mp hg
      subst hnil
      have hloop : mysticalLoop cap (f + 1) [] temp = (none, [], temp) := by
        simp [mysticalLoop, getMax]
      constructor
      · intro t h' temp' hEq
        rw [hloop] at hEq
        exact absurd (congrArg Prod.fst hEq) (by simp)
      · intro h' temp' hEq
        rw [hloop] at hEq
        injection hEq with h1 h2
        injection h2 with h3 h4
        subst h3; subst h4
        exact ⟨rfl, [], by simp⟩
    | some v =>
      obtain ⟨e, rest⟩ := v
      obtain ⟨hperm, hmax⟩ := getMax_spec heap e rest hg
      have hrl : rest.length ≤ f := by
        have := getMax_length hg
        omega
      by_cases hfit : e.2.weight ≤ cap
      · have hloop : mysticalLoop cap (f + 1) heap temp = (some e.2, rest, temp) := by
          simp only [mysticalLoop]
          rw [hg]
          simp [hfit]
        constructor
        · intro t h' temp' hEq
          rw [hloop] at hEq
          injection hEq with h1 h2
          injection h2 with h3 h4
          injection h1 with h5
          subst h5; subst h3; subst h4
          refine ⟨e.1, [], by simp, ?_, hfit, by simp, ?_, by simp⟩
          · simpa using hperm
          · exact hmax
        · intro h' temp' hEq
          rw [hloop] at hEq
          exact absurd (congrArg Prod.fst hEq) (by simp)
      · have hloop : mysticalLoop cap (f + 1) heap temp
            = mysticalLoop cap f rest (temp ++ [e]) := by
          simp only [mysticalLoop]
          rw [hg]
          simp [hfit]
        obtain ⟨ihs, ihn⟩ := ih rest (temp ++ [e]) hrl
        constructor
        · intro t h' temp' hEq
          rw [hloop] at hEq
          obtain ⟨r, rej, hta, hpa, hca, hra, hha, hrb⟩ := ihs t h' temp' hEq
          refine ⟨r, e :: rej, ?_, ?_, hca, ?_, hha, ?_⟩
          · rw [hta, List.append_assoc]
            rfl
          · refine hperm.trans ?_
            refine List.Perm.cons e hpa |>.trans ?_
            exact List.Perm.rfl
          · intro p hp
            rcases List.mem_cons.mp hp with rfl | hp'
            · exact hfit
            · exact hra p hp'
          · intro p hp
            rcases List.mem_cons.mp hp with rfl | hp'
            · have hmem : (r, t) ∈ rest := by
                have : (r, t) ∈ rej ++ (r, t) :: h' := by simp
                exact hpa.mem_iff.mpr this
              exact hmax _ hmem
            · exact hrb p hp'
        · intro h' temp' hEq
          rw [hloop] at hEq
          obtain ⟨hh, rej, hta, hpa, hra⟩ := ihn h' temp' hEq
          refine ⟨hh, e :: rej, ?_, ?_, ?_⟩
          · rw [hta, List.append_assoc]
            rfl
          · exact hperm.trans (List.Perm.cons e hpa)
          · intro p hp
            rcases List.mem_cons.mp hp with rfl | hp'
            · exact hfit
            · exact hra p hp'

theorem getOptimalTreasureMystical_spec (cap : ℚ) (heap : List (ℚ × Treasure)) :
    (∀ t H, getOptimalTreasureMystical cap heap = (some t, H) →
      ∃ r, heap.Perm ((r, t) :: H) ∧ t.weight ≤ cap
        ∧ (∀ e ∈ H, r < e.1 → ¬ e.2.weight ≤ cap))
    ∧ (∀ H, getOptimalTreasureMystical cap heap = (none, H) →
      H.Perm heap ∧ ∀ e ∈ heap, ¬ e.2.weight ≤ cap) := by
  obtain ⟨hs, hn⟩ := mysticalLoop_spec cap heap.length heap [] le_rfl
  constructor
  · intro t H hEq
    rw [getOptimalTreasureMystical] at hEq
    cases hml : mysticalLoop cap heap.length heap [] with
    | mk opt rest =>
      obtain ⟨h', temp'⟩ := rest
      rw [hml] at hEq
      simp only at hEq
      injection hEq with h1 h2
      subst h1
      obtain ⟨r, rej, hta, hpa, hca, hra, hha, hrb⟩ := hs t h' temp' hml
      simp only [List.nil_append] at hta
      rw [foldl_heapAdd, hta] at h2
      subst h2
      refine ⟨r, ?_, hca, ?_⟩
      · refine hpa.trans ?_
        refine (@List.perm_middle _ (r, t) rej h').trans ?_
        exact List.Perm.cons _ List.perm_append_comm
      · intro e he hlt
        rcases List.mem_append.mp he with he1 | he2
        · exact absurd hlt (not_lt_of_ge (hha e he1))
        · exact hra e he2
  · intro H hEq
    rw [getOptimalTreasureMystical] at hEq
    cases hml : mysticalLoop cap heap.length heap [] with
    | mk opt rest =>
      obtain ⟨h', temp'⟩ := rest
      rw [hml] at hEq
      simp only at hEq
      injection hEq with h1 h2
      subst h1
      obtain ⟨hh, rej, hta, hpa, hra⟩ := hn h' temp' hml
      simp only [List.nil_append] at hta
      subst hh
      rw [foldl_heapAdd, hta] at h2
      simp only [List.nil_append] at h2
      subst h2
      refine ⟨hpa.symm, ?_⟩
      intro e he
      exact hra e (hpa.mem_iff.mp he)

theorem getOptimalTreasureSpooky_some {cap : ℚ} {tr : BTree Treasure}
    {t : Treasure} {res : BTree Treasure} (hinv : BTree.Inv tr)
    (hEq : getOptimalTreasureSpooky cap tr = (some t, res)) :
    ∃ k, tr.inorder.find? (fun p => p.2.weight ≤ cap) = some (k, t)
      ∧ res.inorder = tr.inorder.eraseP (BTree.keyIs k)
      ∧ res.size + 1 = tr.size := by
  rw [getOptimalTreasureSpooky] at hEq
  cases hf : tr.inorder.find? (fun p => p.2.weight ≤ cap) with
  | none =>
    rw [hf] at hEq
    cases hEq
  | some v =>
    obtain ⟨k, t'⟩ := v
    rw [hf] at hEq
    simp only at hEq
    injection hEq with h1 h2
    injection h1 with h3
    subst h3
    subst h2
    refine ⟨k, rfl, BTree.inorder_delByKey k tr hinv, ?_⟩
    have hmem : (k, t') ∈ tr.inorder := List.mem_of_find?_eq_some hf
    have hkey : BTree.keyIs k (k, t') = true := by simp [BTree.keyIs]
    have hlen := List.length_eraseP_of_mem hmem hkey
    have h4 := BTree.inorder_delByKey k tr hinv
    rw [BTree.size_eq_length_inorder, BTree.size_eq_length_inorder, h4, hlen]
    have : 0 < tr.inorder.length := List.length_pos_of_mem hmem
    omega

theorem getOptimalTreasureSpooky_none {cap : ℚ} {tr : BTree Treasure}
    {res : BTree Treasure}
    (hEq : getOptimalTreasureSpooky cap tr = (none, res)) :
    res = tr ∧ tr.inorder.find? (fun p => p.2.weight ≤ cap) = none := by
  rw [getOptimalTreasureSpooky] at hEq
  cases hf : tr.inorder.find? (fun p => p.2.weight ≤ cap) with
  | none =>
    rw [hf] at hEq
    injection hEq with h1 h2
    exact ⟨h2.symm, rfl⟩
  | some v =>
    obtain ⟨k, t'⟩ := v
    rw [hf] at hEq
    cases hEq

theorem restructureSpookyHollow_winv (ts : List Treasure) :
    BTree.WInv (restructureSpookyHollow ts) :=
  BTree.winv_of_inv (restructureSpookyHollow_inv ts)

theorem getOptimalTreasureSpooky_some_winv {cap : ℚ} {tr : BTree Treasure}
    {t : Treasure} {res : BTree Treasure} (hw : BTree.WInv tr)
    (hEq : getOptimalTreasureSpooky cap tr = (some t, res)) :
    res.size + 1 = tr.size ∧ BTree.WInv res := by
  rw [getOptimalTreasureSpooky] at hEq
  cases hf : tr.inorder.find? (fun p => p.2.weight ≤ cap) with
  | none =>
    rw [hf] at hEq
    cases hEq
  | some v =>
    obtain ⟨k, t'⟩ := v
    rw [hf] at hEq
    simp only at hEq
    injection hEq with h1 h2
    injection h1 with h3
    subst h3
    subst h2
    have hmem : (k, t') ∈ tr.inorder := List.mem_of_find?_eq_some hf
    exact ⟨BTree.delByKey_size k hw ⟨t', hmem⟩, BTree.delByKey_winv k hw⟩

/-! ### Maze (`maze.py`) -/

/-- Embeds `Position`: an integer (row, col) pair with structural
equality. -/
structure Position where
  row : ℤ
  col : ℤ
deriving DecidableEq, Repr

/-- Embeds the possible values of `MazeCell.tile`: the display strings
for empty, start, exit and wall cells, or a reference to a hollow.  A
spooky tile carries the index of its private `SpookyHollow` instance in
the hollow store; all mystical tiles refer to the single shared
`MysticalHollow` instance. -/
inductive Tile where
  | empty
  | start
  | exit
  | wall
  | spookyH (idx : ℕ)
  | mysticalH
deriving DecidableEq, Repr

/-- The mutable state of every hollow instance reachable from the grid:
one tree per `SpookyHollow` instance and the single shared
`MysticalHollow` heap. -/
structure HollowStore where
  spookies : List (BTree Treasure)
  mystical : List (ℚ × Treasure)
deriving DecidableEq, Repr

/-- Embeds `Maze` (grid shape and special positions; the per-cell
`visited` flags are threaded separately as a list of visited
positions, and hollow contents live in the `HollowStore`). -/
structure Maze where
  rows : ℕ
  cols : ℕ
  startPos : Position
  endPositions : List Position
  grid : List (List Tile)
deriving DecidableEq, Repr

/-- The tile of the grid cell at a position (only meaningful for
in-bounds positions; Python checks bounds before indexing). -/
def tileAt (m : Maze) (p : Position) : Tile :=
  (m.grid.getD p.row.toNat []).getD p.col.toNat Tile.wall

/-- Embeds `Maze.directions`: the row/column offsets for UP, DOWN,
LEFT, RIGHT, in that (insertion) order. -/
def mazeDirections : List (ℤ × ℤ) := [(-1, 0), (1, 0), (0, -1), (0, 1)]

/-- Embeds `Maze.is_valid_position`: within the grid bounds and not a
wall tile. -/
def isValidPosition (m : Maze) (p : Position) : Bool :=
  decide (0 ≤ p.row ∧ p.row < (m.rows : ℤ) ∧ 0 ≤ p.col ∧ p.col < (m.cols : ℤ)
    ∧ tileAt m p ≠ Tile.wall)

/-- Embeds `Maze.get_available_positions`: apply each direction offset
in order and keep the valid positions. -/
def getAvailablePositions (m : Maze) (cur : Position) : List Position :=
  mazeDirections.foldl
    (fun acc d =>
      if isValidPosition m ⟨cur.row + d.1, cur.col + d.2⟩ then
        acc ++ [⟨cur.row + d.1, cur.col + d.2⟩]
      else acc)
    []

mutual
/-- Embeds `Maze.find_path_aux`.  The visited flags are the list `vis`
of visited positions; the call returns (result, visited flags after the
call, log of the cells expanded by the call, in order).  `fuel` bounds
the recursion depth (Python's native call stack); every branch point of
the Python code is reproduced: an end position returns the extended path
at once, a visited cell fails, otherwise the cell is marked visited and
the neighbours are explored in order.  The Python code mutates `path`
in place and removes `current_position` again on backtrack; since a
cell is appended only if unvisited (and an end cell returns
immediately), that removal always removes the last element, so passing
`path` functionally is equivalent. -/
def findPathAux (m : Maze) (fuel : ℕ) (cur : Position)
    (path vis : List Position) :
    Option (List Position) × List Position × List Position :=
  if cur ∈ m.endPositions then (some (path ++ [cur]), vis, [])
  else if cur ∈ vis then (none, vis, [])
  else
    match fuel with
    | 0 => (none, cur :: vis, [cur])
    | f + 1 =>
      match findPathLoop m f (getAvailablePositions m cur)
          (path ++ [cur]) (cur :: vis) with
      | (res, vis2, log2) => (res, vis2, cur :: log2)
termination_by (fuel, 0)

/-- Embeds the `for next_position in available_positions` loop of
`Maze.find_path_aux`: try each neighbour in turn, returning the first
successful path, threading the visited flags through the attempts. -/
def findPathLoop (m : Maze) (fuel : ℕ) (qs : List Position)
    (path vis : List Position) :
    Option (List Position) × List Position × List Position :=
  match qs with
  | [] => (none, vis, [])
  | q :: rest =>
    match findPathAux m fuel q path vis with
    | (some r, vis1, lg1) => (some r, vis1, lg1)
    | (none, vis1, lg1) =>
      match findPathLoop m fuel rest path vis1 with
      | (res, vis2, lg2) => (res, vis2, lg1 ++ lg2)
termination_by (fuel, qs.length + 1)
end

/-- Embeds `Maze.find_way_out`: depth-first search from the start
position with the empty path.  The fuel `rows * cols + 1` dominates the
Python recursion depth (each recursive level expands a fresh cell). -/
def findWayOut (m : Maze) (vis : List Position) :
    Option (List Position) × List Position × List Position :=
  findPathAux m (m.rows * m.cols + 1) m.startPos [] vis

/-- True for the tiles holding a hollow (`isinstance(cell.tile, Hollow)`). -/
def isHollowTile : Tile → Bool
  | Tile.spookyH _ => true
  | Tile.mysticalH => true
  | _ => false

/-- Dispatches `cell.tile.get_optimal_treasure(backpack_capacity)` on
the hollow referenced by a tile, returning the result and the updated
store.  A spooky tile updates only its own tree; a mystical tile
updates the single shared heap. -/
def getOptimalTreasureAt (st : HollowStore) (tile : Tile) (cap : ℚ) :
    Option Treasure × HollowStore :=
  match tile with
  | Tile.spookyH i =>
    match st.spookies.get? i with
    | none => (none, st)
    | some tr =>
      match getOptimalTreasureSpooky cap tr with
      | (res, tr') => (res, { st with spookies := st.spookies.set i tr' })
  | Tile.mysticalH =>
    match getOptimalTreasureMystical cap st.mystical with
    | (res, h') => (res, { st with mystical := h' })
  | _ => (none, st)

/-- Embeds the loop of `Maze.take_treasures`: walk the path cells in
order; at each hollow-bearing cell ask the hollow for its optimal
treasure under the current remaining capacity; append a returned
treasure (re-checking its weight against the remaining capacity, as the
Python code does) and decrease the capacity, otherwise continue.
Returns (treasures taken, store after the walk, remaining capacity). -/
def takeTreasuresAux : HollowStore → List Tile → ℚ → List Treasure →
    List Treasure × HollowStore × ℚ
  | st, [], _cap, acc => (acc, st, _cap)
  | st, c :: cs, cap, acc =>
    if isHollowTile c then
      match getOptimalTreasureAt st c cap with
      | (some t, st') =>
        if t.weight ≤ cap then takeTreasuresAux st' cs (cap - t.weight) (acc ++ [t])
        else takeTreasuresAux st' cs cap acc
      | (none, st') => takeTreasuresAux st' cs cap acc
    else takeTreasuresAux st cs cap acc

/-- Embeds `Maze.take_treasures`: run the walk with an empty output
list; return the accumulated list, or `None` when it is empty. -/
def takeTreasures (st : HollowStore) (path : List Tile) (cap : ℚ) :
    Option (List Treasure) × HollowStore :=
  match takeTreasuresAux st path cap [] with
  | (acc, st', _) => (if acc.isEmpty then none else some acc, st')

/-! ### Loading a maze from a file (`Maze.load_maze_from_file`)

Modelled from the spec for the tile vocabulary (`config.py` is not in
the repository) and parameterised by the treasure generator
(`treasure.generate_treasures` is random and not in the repository):
each spooky character constructs a fresh `SpookyHollow` instance with
its own generated treasures, while every mystical character references
the single `MysticalHollow` instance constructed once before the scan. -/

/-- Modelled from the spec: the tile characters of a maze file. -/
inductive RawTile where
  | startC
  | exitC
  | wallC
  | spookyC
  | mysticalC
  | emptyC
deriving DecidableEq, Repr

/-- Translate one maze-file character into a grid tile, threading the
counter of spooky instances created so far: a spooky character receives
the next fresh instance index. -/
def rawToTile (c : RawTile) (k : ℕ) : Tile × ℕ :=
  match c with
  | RawTile.spookyC => (Tile.spookyH k, k + 1)
  | RawTile.mysticalC => (Tile.mysticalH, k)
  | RawTile.startC => (Tile.start, k)
  | RawTile.exitC => (Tile.exit, k)
  | RawTile.wallC => (Tile.wall, k)
  | RawTile.emptyC => (Tile.empty, k)

/-- Translate one row of maze-file characters, threading the spooky
instance counter. -/
def parseRow : List RawTile → ℕ → List Tile × ℕ
  | [], k => ([], k)
  | c :: cs, k =>
    match rawToTile c k with
    | (t, k1) =>
      match parseRow cs k1 with
      | (ts, k2) => (t :: ts, k2)

/-- Translate all rows of a maze file, threading the spooky instance
counter. -/
def parseGrid : List (List RawTile) → ℕ → List (List Tile) × ℕ
  | [], k => ([], k)
  | row :: rows, k =>
    match parseRow row k with
    | (ts, k1) =>
      match parseGrid rows k1 with
      | (tss, k2) => (ts :: tss, k2)

/-- The positions (row-major) of a character within one row, embedding
the `enumerate` scan of `load_maze_from_file`. -/
def rowPositionsFrom (i j : ℤ) (c : RawTile) : List RawTile → List Position
  | [] => []
  | x :: xs =>
    if x = c then ⟨i, j⟩ :: rowPositionsFrom i (j + 1) c xs
    else rowPositionsFrom i (j + 1) c xs

/-- The positions (row-major) of a character within the whole file. -/
def gridPositionsFrom (i : ℤ) (c : RawTile) : List (List RawTile) → List Position
  | [] => []
  | row :: rows =>
    rowPositionsFrom i 0 c row ++ gridPositionsFrom (i + 1) c rows

/-- Embeds `Maze.load_maze_from_file`.  `lines` is the validated maze
file; `spookyGen i` is the treasure list generated for the `i`-th
`SpookyHollow()` construction, and `mysticalTreasures` the list
generated for the single shared `MysticalHollow()`.  Returns the maze
and the store holding every hollow instance: one restructured tree per
spooky tile, and one restructured heap shared by all mystical tiles. -/
def loadMazeFromFile (lines : List (List RawTile))
    (spookyGen : ℕ → List Treasure) (mysticalTreasures : List Treasure) :
    Maze × HollowStore :=
  match parseGrid lines 0 with
  | (grid, count) =>
    (⟨lines.length, (lines.headD []).length,
      (gridPositionsFrom 0 RawTile.startC lines).headD ⟨0, 0⟩,
      gridPositionsFrom 0 RawTile.exitC lines,
      grid⟩,
     ⟨(List.range count).map (fun i => restructureSpookyHollow (spookyGen i)),
      restructureMysticalHollow mysticalTreasures⟩)

/-- The spooky instance index carried by a tile, if any. -/
def spookyIdx : Tile → Option ℕ
  | Tile.spookyH i => some i
  | _ => none

/-- The spooky instance indices occurring in a list of tiles. -/
def spookyIdxList (ts : List Tile) : List ℕ := ts.filterMap spookyIdx

/-- The number of spooky characters in a row. -/
def numSpookyRow (row : List RawTile) : ℕ :=
  row.countP (fun c => c = RawTile.spookyC)

/-- The number of spooky characters in a whole file. -/
def numSpookyGrid (rows : List (List RawTile)) : ℕ :=
  (rows.map numSpookyRow).sum

theorem parseRow_snd (row : List RawTile) :
    ∀ k, (parseRow row k).2 = k + numSpookyRow row := by
  induction row with
  | nil => intro k; simp [parseRow, numSpookyRow]
  | cons c cs ih =>
    intro k
    cases c <;>
      simp [parseRow, rawToTile, numSpookyRow, List.countP_cons, ih] <;>
      simp [numSpookyRow] at ih ⊢ <;> omega

theorem parseRow_spookyIdx (row : List RawTile) :
    ∀ k, spookyIdxList (parseRow row k).1 = List.range' k (numSpookyRow row) := by
  induction row with
  | nil => intro k; simp [parseRow, numSpookyRow, spookyIdxList]
  | cons c cs ih =>
    intro k
    cases c <;>
      simp [parseRow, rawToTile, spookyIdxList, spookyIdx, numSpookyRow,
        List.countP_cons, List.range'_succ] <;>
      simpa [spookyIdxList, numSpookyRow] using ih _

theorem parseGrid_snd (rows : List (List RawTile)) :
    ∀ k, (parseGrid rows k).2 = k + numSpookyGrid rows := by
  induction rows with
  | nil => intro k; simp [parseGrid, numSpookyGrid]
  | cons row rest ih =>
    intro k
    simp only [parseGrid]
    cases hp : parseRow row k with
    | mk ts k1 =>
      cases hg : parseGrid rest k1 with
      | mk tss k2 =>
        have h1 : k1 = k + numSpookyRow row := by
          have := parseRow_snd row k
          rw [hp] at this
          exact this
        have h2 : k2 = k1 + numSpookyGrid rest := by
          have := ih k1
          rw [hg] at this
          exact this
        simp only [numSpookyGrid] at h2
        simp only [numSpookyGrid, List.map_cons, List.sum_cons]
        omega

theorem parseGrid_get? (rows : List (List RawTile)) :
    ∀ k r, ((parseGrid rows k).1.get? r)
      = (rows.get? r).map
          (fun row => (parseRow row (k + numSpookyGrid (rows.take r))).1) := by
  induction rows with
  | nil => intro k r; simp [parseGrid]
  | cons row rest ih =>
    intro k r
    simp only [parseGrid]
    cases hp : parseRow row k with
    | mk ts k1 =>
      cases hg : parseGrid rest k1 with
      | mk tss k2 =>
        have h1 : k1 = k + numSpookyRow row := by
          have := parseRow_snd row k
          rw [hp] at this
          exact this
        cases r with
        | zero =>
          simp only [List.get?_cons_zero, List.take_zero, numSpookyGrid,
            List.map_nil, List.sum_nil, Nat.add_zero, Option.map_some']
          rw [hp]
        | succ r' =>
          simp only [List.get?_cons_succ]
          have hih := ih k1 r'
          rw [hg] at hih
          simp only at hih
          have harg : k1 + numSpookyGrid (rest.take r')
              = k + numSpookyGrid ((row :: rest).take (r' + 1)) := by
            simp only [List.take_succ_cons, numSpookyGrid, List.map_cons,
              List.sum_cons]
            omega
          rw [harg] at hih
          rw [hih]

theorem filterMap_nodup_index_inj {α β : Type} (f : α → Option β) :
    ∀ (l : List α), (l.filterMap f).Nodup →
      ∀ (c c' : ℕ) (x x' : α) (y : β),
        l.get? c = some x → l.get? c' = some x' →
        f x = some y → f x' = some y → c = c' := by
  intro l
  induction l with
  | nil =>
    intro _ c c' x x' y hx
    simp at hx
  | cons a as ih =>
    intro hnd c c' x x' y hx hx' hfx hfx'
    cases c with
    | zero =>
      cases c' with
      | zero => rfl
      | succ j =>
        simp only [List.get?_cons_zero] at hx
        injection hx with hxa
        subst hxa
        simp only [List.get?_cons_succ] at hx'
        have hy_mem : y ∈ as.filterMap f :=
          List.mem_filterMap.mpr ⟨x', List.get?_mem hx', hfx'⟩
        rw [List.filterMap_cons_some hfx] at hnd
        exact absurd hy_mem (List.nodup_cons.mp hnd).1
    | succ i =>
      cases c' with
      | zero =>
        simp only [List.get?_cons_zero] at hx'
        injection hx' with hxa
        subst hxa
        simp only [List.get?_cons_succ] at hx
        have hy_mem : y ∈ as.filterMap f :=
          List.mem_filterMap.mpr ⟨x, List.get?_mem hx, hfx⟩
        rw [List.filterMap_cons_some hfx'] at hnd
        exact absurd hy_mem (List.nodup_cons.mp hnd).1
      | succ j =>
        simp only [List.get?_cons_succ] at hx hx'
        have hnd' : (as.filterMap f).Nodup := by
          cases hfa : f a with
          | none => rwa [List.filterMap_cons_none hfa] at hnd
          | some b =>
            rw [List.filterMap_cons_some hfa] at hnd
            exact (List.nodup_cons.mp hnd).2
        have := ih hnd' i j x x' y hx hx' hfx hfx'
        omega

theorem sum_take_le (l : List ℕ) : ∀ n, (l.take n).sum ≤ l.sum := by
  induction l with
  | nil => intro n; simp
  | cons a as ih =>
    intro n
    cases n with
    | zero => simp
    | succ n' =>
      simp only [List.take_succ_cons, List.sum_cons]
      exact Nat.add_le_add_left (ih n') a

theorem numSpookyGrid_take_succ (lines : List (List RawTile)) (r : ℕ)
    (row : List RawTile) (h : lines.get? r = some row) :
    numSpookyGrid (lines.take (r + 1))
      = numSpookyGrid (lines.take r) + numSpookyRow row := by
  have h2 : lines[r]? = some row := by
    rw [← List.get?_eq_getElem? lines r]
    exact h
  rw [List.take_succ, h2]
  simp [numSpookyGrid]

theorem numSpookyGrid_take_mono (lines : List (List RawTile)) {a b : ℕ}
    (hab : a ≤ b) :
    numSpookyGrid (lines.take a) ≤ numSpookyGrid (lines.take b) := by
  have h1 : lines.take a = (lines.take b).take a := by
    rw [List.take_take]
    congr 1
    omega
  rw [h1]
  simp only [numSpookyGrid, List.map_take]
  exact sum_take_le _ a

/-- The tile at grid coordinates (row, column), if both are in range. -/
def gridTileAt (g : List (List Tile)) (r c : ℕ) : Option Tile :=
  (g.get? r).bind (fun row => row.get? c)

theorem parseGrid_spooky_bounds (lines : List (List RawTile)) (k : ℕ)
    (r c i : ℕ)
    (h : gridTileAt (parseGrid lines k).1 r c = some (Tile.spookyH i)) :
    ∃ row, lines.get? r = some row
      ∧ k + numSpookyGrid (lines.take r) ≤ i
      ∧ i < k + numSpookyGrid (lines.take r) + numSpookyRow row := by
  rw [gridTileAt] at h
  cases hr : (parseGrid lines k).1.get? r with
  | none => rw [hr] at h; cases h
  | some rowT =>
    rw [hr] at h
    replace h : rowT.get? c = some (Tile.spookyH i) := h
    rw [parseGrid_get? lines k r] at hr
    cases hlr : lines.get? r with
    | none => rw [hlr] at hr; cases hr
    | some row =>
      rw [hlr] at hr
      simp only [Option.map_some'] at hr
      injection hr with hrow
      refine ⟨row, rfl, ?_⟩
      have hmem : i ∈ spookyIdxList rowT := by
        refine List.mem_filterMap.mpr ⟨Tile.spookyH i, List.get?_mem h, rfl⟩
      rw [← hrow, parseRow_spookyIdx] at hmem
      have := List.mem_range'_1.mp hmem
      omega

theorem parseGrid_spooky_inj (lines : List (List RawTile)) (k : ℕ)
    (r c r' c' i : ℕ)
    (h : gridTileAt (parseGrid lines k).1 r c = some (Tile.spookyH i))
    (h' : gridTileAt (parseGrid lines k).1 r' c' = some (Tile.spookyH i)) :
    r = r' ∧ c = c' := by
  obtain ⟨row, hlr, hlo, hhi⟩ := parseGrid_spooky_bounds lines k r c i h
  obtain ⟨row', hlr', hlo', hhi'⟩ := parseGrid_spooky_bounds lines k r' c' i h'
  have hrr : r = r' := by
    by_contra hne
    rcases Nat.lt_or_ge r r' with hlt | hge
    · have hstep := numSpookyGrid_take_succ lines r row hlr
      have hmono := numSpookyGrid_take_mono lines (show r + 1 ≤ r' by omega)
      omega
    · have hlt2 : r' < r := by omega
      have hstep := numSpookyGrid_take_succ lines r' row' hlr'
      have hmono := numSpookyGrid_take_mono lines (show r' + 1 ≤ r by omega)
      omega
  subst hrr
  refine ⟨rfl, ?_⟩
  rw [gridTileAt] at h h'
  cases hr : (parseGrid lines k).1.get? r with
  | none => rw [hr] at h; cases h
  | some rowT =>
    rw [hr] at h h'
    replace h : rowT.get? c = some (Tile.spookyH i) := h
    replace h' : rowT.get? c' = some (Tile.spookyH i) := h'
    have hnd : (spookyIdxList rowT).Nodup := by
      rw [parseGrid_get?, hlr] at hr
      simp only [Option.map_some'] at hr
      injection hr with hrow
      rw [← hrow, parseRow_spookyIdx]
      exact List.nodup_range' _ _
    exact filterMap_nodup_index_inj spookyIdx rowT hnd c c' _ _ i h h' rfl rfl

/-! ### Properties of the path search -/

/-- The relation between the visited flags before a search step, the
visited flags after it, and the cells the step expanded: expanded cells
are pairwise distinct, were unvisited on entry, are not end positions,
and the visited set after the call is exactly the visited set before
plus the expanded cells. -/
def StepOK (m : Maze) (vis vis' lg : List Position) : Prop :=
  lg.Nodup ∧ (∀ p ∈ lg, p ∉ vis) ∧ (∀ p ∈ lg, p ∉ m.endPositions)
    ∧ (∀ p, p ∈ vis' ↔ p ∈ vis ∨ p ∈ lg)

theorem findPath_stepOK (m : Maze) :
    ∀ fuel : ℕ,
      (∀ cur path vis, StepOK m vis (findPathAux m fuel cur path vis).2.1
        (findPathAux m fuel cur path vis).2.2)
      ∧ (∀ qs path vis, StepOK m vis (findPathLoop m fuel qs path vis).2.1
        (findPathLoop m fuel qs path vis).2.2) := by
  have base0 : ∀ cur path vis, StepOK m vis (findPathAux m 0 cur path vis).2.1
      (findPathAux m 0 cur path vis).2.2 := by
    intro cur path vis
    rw [findPathAux]
    by_cases hend : cur ∈ m.endPositions
    · simp only [hend, if_pos]
      exact ⟨List.nodup_nil, by simp, by simp, by simp⟩
    · simp only [hend, if_neg, not_false_iff]
      by_cases hvis : cur ∈ vis
      · simp only [hvis, if_pos]
        exact ⟨List.nodup_nil, by simp, by simp, by simp⟩
      · simp only [hvis, if_neg, not_false_iff]
        refine ⟨List.nodup_singleton cur, ?_, ?_, ?_⟩
        · intro p hp
          rw [List.mem_singleton] at hp
          subst hp
          exact hvis
        · intro p hp
          rw [List.mem_singleton] at hp
          subst hp
          exact hend
        · intro p
          simp [List.mem_cons, or_comm]
  have loopStep : ∀ fuel : ℕ,
      (∀ cur path vis, StepOK m vis (findPathAux m fuel cur path vis).2.1
        (findPathAux m fuel cur path vis).2.2) →
      (∀ qs path vis, StepOK m vis (findPathLoop m fuel qs path vis).2.1
        (findPathLoop m fuel qs path vis).2.2) := by
    intro fuel hA qs
    induction qs with
    | nil =>
      intro path vis
      rw [findPathLoop]
      exact ⟨List.nodup_nil, by simp, by simp, by simp⟩
    | cons q rest ih =>
      intro path vis
      rw [findPathLoop]
      cases hA1 : findPathAux m fuel q path vis with
      | mk r1 rest1 =>
        obtain ⟨vis1, lg1⟩ := rest1
        have s1 := hA q path vis
        rw [hA1] at s1
        simp only at s1
        obtain ⟨s1n, s1v, s1e, s1i⟩ := s1
        cases r1 with
        | some r =>
          simp only
          exact ⟨s1n, s1v, s1e, s1i⟩
        | none =>
          obtain ⟨s2n, s2v, s2e, s2i⟩ := ih path vis1
          show StepOK m vis (findPathLoop m fuel rest path vis1).2.1
            (lg1 ++ (findPathLoop m fuel rest path vis1).2.2)
          refine ⟨?_, ?_, ?_, ?_⟩
          · rw [List.nodup_append]
            refine ⟨s1n, s2n, ?_⟩
            intro p hp1 hp2
            have hv1 : p ∈ vis1 := (s1i p).mpr (Or.inr hp1)
            exact s2v p hp2 hv1
          · intro p hp
            rcases List.mem_append.mp hp with hp1 | hp2
            · exact s1v p hp1
            · intro hpv
              exact s2v p hp2 ((s1i p).mpr (Or.inl hpv))
          · intro p hp
            rcases List.mem_append.mp hp with hp1 | hp2
            · exact s1e p hp1
            · exact s2e p hp2
          · intro p
            rw [s2i p, s1i p, List.mem_append]
            tauto
  intro fuel
  induction fuel with
  | zero => exact ⟨base0, loopStep 0 base0⟩
  | succ fuel ih =>
    have hA : ∀ cur path vis, StepOK m vis (findPathAux m (fuel + 1) cur path vis).2.1
        (findPathAux m (fuel + 1) cur path vis).2.2 := by
      intro cur path vis
      rw [findPathAux]
      by_cases hend : cur ∈ m.endPositions
      · simp only [hend, if_pos]
        exact ⟨List.nodup_nil, by simp, by simp, by simp⟩
      · simp only [hend, if_neg, not_false_iff]
        by_cases hvis : cur ∈ vis
        · simp only [hvis, if_pos]
          exact ⟨List.nodup_nil, by simp, by simp, by simp⟩
        · simp only [hvis, if_neg, not_false_iff]
          obtain ⟨s2n, s2v, s2e, s2i⟩ := (loopStep fuel ih.1)
            (getAvailablePositions m cur) (path ++ [cur]) (cur :: vis)
          show StepOK m vis
            (findPathLoop m fuel (getAvailablePositions m cur)
              (path ++ [cur]) (cur :: vis)).2.1
            (cur :: (findPathLoop m fuel (getAvailablePositions m cur)
              (path ++ [cur]) (cur :: vis)).2.2)
          refine ⟨?_, ?_, ?_, ?_⟩
          · rw [List.nodup_cons]
            refine ⟨?_, s2n⟩
            intro hmem
            exact s2v cur hmem (List.mem_cons_self cur vis)
          · intro p hp
            rcases List.mem_cons.mp hp with rfl | hp'
            · exact hvis
            · intro hpv
              exact s2v p hp' (List.mem_cons_of_mem cur hpv)
          · intro p hp
            rcases List.mem_cons.mp hp with rfl | hp'
            · exact hend
            · exact s2e p hp'
          · intro p
            rw [s2i p, List.mem_cons, List.mem_cons]
            tauto
    exact ⟨hA, loopStep (fuel + 1) hA⟩

theorem findPathAux_of_end (m : Maze) (fuel : ℕ) (cur : Position)
    (path vis : List Position) (h : cur ∈ m.endPositions) :
    findPathAux m fuel cur path vis = (some (path ++ [cur]), vis, []) := by
  rw [findPathAux.eq_def]
  simp [h]

/-! ### Properties of the treasure walk -/

theorem takeTreasuresAux_spec :
    ∀ (path : List Tile) (st : HollowStore) (cap : ℚ) (acc : List Treasure),
      ∃ new, (takeTreasuresAux st path cap acc).1 = acc ++ new
        ∧ (takeTreasuresAux st path cap acc).2.2
            = cap - (new.map Treasure.weight).sum
        ∧ (new = [] ∨ 0 ≤ (takeTreasuresAux st path cap acc).2.2) := by
  intro path
  induction path with
  | nil =>
    intro st cap acc
    exact ⟨[], by simp [takeTreasuresAux], by simp [takeTreasuresAux], Or.inl rfl⟩
  | cons c cs ih =>
    intro st cap acc
    by_cases hh : isHollowTile c
    · cases hopt : getOptimalTreasureAt st c cap with
      | mk opt st' =>
        cases opt with
        | some t =>
          by_cases hw : t.weight ≤ cap
          · have hstep : takeTreasuresAux st (c :: cs) cap acc
                = takeTreasuresAux st' cs (cap - t.weight) (acc ++ [t]) := by
              simp [takeTreasuresAux, hh, hopt, hw]
            obtain ⟨new, h1, h2, h3⟩ := ih st' (cap - t.weight) (acc ++ [t])
            refine ⟨t :: new, ?_, ?_, ?_⟩
            · rw [hstep, h1, List.append_assoc]
              rfl
            · rw [hstep, h2]
              simp only [List.map_cons, List.sum_cons]
              ring
            · right
              rw [hstep]
              rcases h3 with h3 | h3
              · rw [h3] at h2
                rw [h2]
                simp only [List.map_nil, List.sum_nil, sub_zero]
                exact sub_nonneg.mpr hw
              · exact h3
          · have hstep : takeTreasuresAux st (c :: cs) cap acc
                = takeTreasuresAux st' cs cap acc := by
              simp [takeTreasuresAux, hh, hopt, hw]
            obtain ⟨new, h1, h2, h3⟩ := ih st' cap acc
            exact ⟨new, by rw [hstep, h1], by rw [hstep, h2], by rw [hstep]; exact h3⟩
        | none =>
          have hstep : takeTreasuresAux st (c :: cs) cap acc
              = takeTreasuresAux st' cs cap acc := by
            simp [takeTreasuresAux, hh, hopt]
          obtain ⟨new, h1, h2, h3⟩ := ih st' cap acc
          exact ⟨new, by rw [hstep, h1], by rw [hstep, h2], by rw [hstep]; exact h3⟩
    · have hstep : takeTreasuresAux st (c :: cs) cap acc
          = takeTreasuresAux st cs cap acc := by
        simp [takeTreasuresAux, hh]
      obtain ⟨new, h1, h2, h3⟩ := ih st cap acc
      exact ⟨new, by rw [hstep, h1], by rw [hstep, h2], by rw [hstep]; exact h3⟩

theorem takeTreasures_weight_bound (st : HollowStore) (path : List Tile)
    (cap : ℚ) (l : List Treasure) (st' : HollowStore)
    (h : takeTreasures st path cap = (some l, st')) :
    (l.map Treasure.weight).sum ≤ cap := by
  obtain ⟨new, h1, h2, h3⟩ := takeTreasuresAux_spec path st cap []
  rw [takeTreasures] at h
  cases hA : takeTreasuresAux st path cap [] with
  | mk acc rest2 =>
    obtain ⟨st2, cap2⟩ := rest2
    rw [hA] at h
    simp only at h
    rw [hA] at h1 h2 h3
    simp only [List.nil_append] at h1 h2 h3
    by_cases hne : acc.isEmpty
    · rw [if_pos hne] at h
      injection h with hl hst
      cases hl
    · rw [if_neg hne] at h
      injection h with hl hst
      injection hl with hl2
      rcases h3 with h3 | h3
      · rw [h3] at h1
        rw [h1] at hne
        simp at hne
      · rw [← hl2, h1]
        rw [h2] at h3
        linarith

/-! ### The claims -/

/-- C1: for every hollow and every capacity, a `get_optimal_treasure`
call returning a treasure strictly decreases the collection's size by
exactly one, and a call returning no treasure leaves both the size and
the multiset of contained treasures unchanged — no partial mutation is
observable, even though the heap variant transiently removes and
reinserts entries.  The spooky collection is any binary search tree
satisfying the spec's data-model invariant (left keys ≤ node key ≤
right keys); the first conjunct shows every restructured hollow
satisfies it and the success case shows every extraction preserves it,
so the hypothesis covers every reachable hollow state.  The mystical
collection is any heap content. -/
theorem claim_C1 :
    (∀ ts : List Treasure, BTree.WInv (restructureSpookyHollow ts))
    ∧ (∀ (cap : ℚ) (tr : BTree Treasure), BTree.WInv tr →
      (∀ t res, getOptimalTreasureSpooky cap tr = (some t, res) →
        res.size + 1 = tr.size ∧ BTree.WInv res)
      ∧ (∀ res, getOptimalTreasureSpooky cap tr = (none, res) →
        res = tr ∧ res.inorder.Perm tr.inorder ∧ BTree.WInv res))
    ∧ (∀ (cap : ℚ) (heap : List (ℚ × Treasure)),
      (∀ t H, getOptimalTreasureMystical cap heap = (some t, H) →
        H.length + 1 = heap.length)
      ∧ (∀ H, getOptimalTreasureMystical cap heap = (none, H) →
        H.Perm heap)) := by
  refine ⟨restructureSpookyHollow_winv, ?_, ?_⟩
  · intro cap tr hw
    constructor
    · intro t res hEq
      exact getOptimalTreasureSpooky_some_winv hw hEq
    · intro res hEq
      obtain ⟨hres, _⟩ := getOptimalTreasureSpooky_none hEq
      subst hres
      exact ⟨rfl, List.Perm.rfl, hw⟩
  · intro cap heap
    obtain ⟨hs, hn⟩ := getOptimalTreasureMystical_spec cap heap
    constructor
    · intro t H hEq
      obtain ⟨r, hperm, _, _⟩ := hs t H hEq
      have := hperm.length_eq
      simpa using this.symm
    · intro H hEq
      exact (hn H hEq).1

theorem claim_C1_witness :
    ((getOptimalTreasureSpooky 1 (buildBalancedTree
        [((-5 : ℚ), Treasure.mk 10 2), (-5, Treasure.mk 25 5),
          (-3, Treasure.mk 3 1), (-2, Treasure.mk 4 2),
          (-1, Treasure.mk 1 1)])).2.size + 1
      = (buildBalancedTree
        [((-5 : ℚ), Treasure.mk 10 2), (-5, Treasure.mk 25 5),
          (-3, Treasure.mk 3 1), (-2, Treasure.mk 4 2),
          (-1, Treasure.mk 1 1)]).size)
    ∧ ((getOptimalTreasureSpooky 2 (getOptimalTreasureSpooky 1 (buildBalancedTree
        [((-5 : ℚ), Treasure.mk 10 2), (-5, Treasure.mk 25 5),
          (-3, Treasure.mk 3 1), (-2, Treasure.mk 4 2),
          (-1, Treasure.mk 1 1)])).2).2.size + 1
      = (getOptimalTreasureSpooky 1 (buildBalancedTree
        [((-5 : ℚ), Treasure.mk 10 2), (-5, Treasure.mk 25 5),
          (-3, Treasure.mk 3 1), (-2, Treasure.mk 4 2),
          (-1, Treasure.mk 1 1)])).2.size)
    ∧ (([] : List (ℚ × Treasure)).length + 1
      = [((2 : ℚ), Treasure.mk 4 2)].length) := by
  have hw1 : BTree.WInv (buildBalancedTree
      [((-5 : ℚ), Treasure.mk 10 2), (-5, Treasure.mk 25 5),
        (-3, Treasure.mk 3 1), (-2, Treasure.mk 4 2),
        (-1, Treasure.mk 1 1)]) :=
    BTree.winv_of_inv (buildBalancedTree_inv _)
  have s1 := (claim_C1.2.1 1 (buildBalancedTree
      [((-5 : ℚ), Treasure.mk 10 2), (-5, Treasure.mk 25 5),
        (-3, Treasure.mk 3 1), (-2, Treasure.mk 4 2),
        (-1, Treasure.mk 1 1)]) hw1).1 (Treasure.mk 3 1)
    (getOptimalTreasureSpooky 1 (buildBalancedTree
      [((-5 : ℚ), Treasure.mk 10 2), (-5, Treasure.mk 25 5),
        (-3, Treasure.mk 3 1), (-2, Treasure.mk 4 2),
        (-1, Treasure.mk 1 1)])).2 (by decide)
  have s2 := (claim_C1.2.1 2 (getOptimalTreasureSpooky 1 (buildBalancedTree
      [((-5 : ℚ), Treasure.mk 10 2), (-5, Treasure.mk 25 5),
        (-3, Treasure.mk 3 1), (-2, Treasure.mk 4 2),
        (-1, Treasure.mk 1 1)])).2 s1.2).1 (Treasure.mk 10 2)
    (getOptimalTreasureSpooky 2 (getOptimalTreasureSpooky 1 (buildBalancedTree
      [((-5 : ℚ), Treasure.mk 10 2), (-5, Treasure.mk 25 5),
        (-3, Treasure.mk 3 1), (-2, Treasure.mk 4 2),
        (-1, Treasure.mk 1 1)])).2).2 (by decide)
  exact ⟨s1.1, s2.1,
    (claim_C1.2.2 2 [((2 : ℚ), Treasure.mk 4 2)]).1 (Treasure.mk 4 2) []
      (by decide)⟩

/-- C2 (failing-input evaluation): on a spooky hollow holding the two
treasures (value 10, weight 5) and (value 4, weight 2) — equal ratio 2,
hence equal stored key -2 — `get_optimal_treasure` with capacity 2
returns the treasure (4, 2), yet afterwards the hollow still contains
(4, 2) and no longer contains (10, 5): `del` by key removed the first
node holding the key -2, which is the node of the other treasure.  This
contradicts the claim (and the method's own docstring) that exactly the
returned treasure's node is removed and no other node is touched. -/
theorem claim_C2_failing_eval :
    getOptimalTreasureSpooky 2
        (restructureSpookyHollow [Treasure.mk 10 5, Treasure.mk 4 2])
      = (some (Treasure.mk 4 2),
          BTree.node (-2) (Treasure.mk 4 2) BTree.leaf BTree.leaf)
    ∧ Treasure.mk 4 2 ∈ ((getOptimalTreasureSpooky 2
        (restructureSpookyHollow [Treasure.mk 10 5, Treasure.mk 4 2])).2.inorder.map
          Prod.snd)
    ∧ Treasure.mk 10 5 ∉ ((getOptimalTreasureSpooky 2
        (restructureSpookyHollow [Treasure.mk 10 5, Treasure.mk 4 2])).2.inorder.map
          Prod.snd) := by
  have hr : restructureSpookyHollow [Treasure.mk 10 5, Treasure.mk 4 2]
      = betterBST [((-2 : ℚ), Treasure.mk 10 5), (-2, Treasure.mk 4 2)] := by
    rw [restructureSpookyHollow]
    norm_num
  rw [hr]
  decide

/-- C3: for every mystical hollow heap and capacity, the loop
repeatedly extracts the maximum-ratio entry; an extracted treasure that
fits is returned and permanently removed, every rejected entry is
reinserted after the loop — so the net effect is removal of exactly the
accepted entry (or no change at all when nothing fits), and every entry
ranked strictly above the accepted one does not fit. -/
theorem claim_C3 (cap : ℚ) (heap : List (ℚ × Treasure)) :
    (∀ t H, getOptimalTreasureMystical cap heap = (some t, H) →
      ∃ r, heap.Perm ((r, t) :: H) ∧ t.weight ≤ cap
        ∧ (∀ e ∈ H, r < e.1 → ¬ e.2.weight ≤ cap))
    ∧ (∀ H, getOptimalTreasureMystical cap heap = (none, H) →
      H.Perm heap ∧ ∀ e ∈ heap, ¬ e.2.weight ≤ cap) :=
  getOptimalTreasureMystical_spec cap heap

theorem claim_C3_witness :
    ∃ r, ([((2 : ℚ), Treasure.mk 4 2), (3, Treasure.mk 9 3)] :
        List (ℚ × Treasure)).Perm ((r, Treasure.mk 4 2) :: [(3, Treasure.mk 9 3)])
      ∧ (Treasure.mk 4 2).weight ≤ 2
      ∧ (∀ e ∈ [((3 : ℚ), Treasure.mk 9 3)], r < e.1 → ¬ e.2.weight ≤ 2) :=
  (claim_C3 2 [((2 : ℚ), Treasure.mk 4 2), (3, Treasure.mk 9 3)]).1
    (Treasure.mk 4 2) [(3, Treasure.mk 9 3)] (by decide)

/-- C4: for every treasure multiset (positive weights), after the
spooky restructuring every stored key is the negated value/weight ratio
of its treasure, the in-order traversal lists the treasures in
non-increasing ratio order, and the treasures stored are exactly the
input treasures. -/
theorem claim_C4 (ts : List Treasure) (hw : ∀ t ∈ ts, 0 < t.weight) :
    (∀ p ∈ (restructureSpookyHollow ts).inorder,
      p.1 = -(p.2.value / p.2.weight))
    ∧ ((restructureSpookyHollow ts).inorder.map Prod.snd).Pairwise
        (fun a b => b.ratio ≤ a.ratio)
    ∧ ((restructureSpookyHollow ts).inorder.map Prod.snd).Perm ts := by
  have hperm := restructureSpookyHollow_perm ts
  have hkey : ∀ p ∈ (restructureSpookyHollow ts).inorder,
      p.1 = -(p.2.value / p.2.weight) := by
    intro p hp
    have := hperm.mem_iff.mp hp
    obtain ⟨t, _, rfl⟩ := List.mem_map.mp this
    rfl
  refine ⟨hkey, ?_, ?_⟩
  · have hsorted := BTree.inv_keySorted (restructureSpookyHollow_inv ts)
    rw [List.pairwise_map]
    refine List.Pairwise.imp_of_mem ?_ hsorted
    intro a b ha hb hab
    have hka := hkey a ha
    have hkb := hkey b hb
    simp only [Treasure.ratio]
    have : -(a.2.value / a.2.weight) ≤ -(b.2.value / b.2.weight) := by
      rw [← hka, ← hkb]
      exact hab
    linarith
  · refine (List.Perm.map Prod.snd hperm).trans ?_
    rw [List.map_map]
    have : (Prod.snd ∘ fun t : Treasure => (-(t.value / t.weight), t)) = id := rfl
    rw [this, List.map_id]

theorem claim_C4_witness :
    (∀ p ∈ (restructureSpookyHollow [Treasure.mk 4 2]).inorder,
      p.1 = -(p.2.value / p.2.weight))
    ∧ ((restructureSpookyHollow [Treasure.mk 4 2]).inorder.map Prod.snd).Pairwise
        (fun a b => b.ratio ≤ a.ratio)
    ∧ ((restructureSpookyHollow [Treasure.mk 4 2]).inorder.map Prod.snd).Perm
        [Treasure.mk 4 2] :=
  claim_C4 [Treasure.mk 4 2] (by decide)

/-- C5: the balanced-build recursion is a no-op on an empty range
(start > end), otherwise it inserts the element at index
`(start + end) // 2` via ordinary BST insertion and then recurses on
`[start, mid-1]` followed by `[mid+1, end]`; consequently the tree
built from a list of n entries contains exactly those n key/item pairs.
(The fuel argument only bounds the recursion depth; any positive fuel
exhibits the step equations.) -/
theorem claim_C5 :
    (∀ (α : Type) (l : List (ℚ × α)) (f : ℕ) (t : BTree α) (s e : ℤ),
      e < s → build_tree_aux l (f + 1) t s e = t)
    ∧ (∀ (α : Type) (l : List (ℚ × α)) (f : ℕ) (t : BTree α) (s e : ℤ),
      ¬ e < s → build_tree_aux l (f + 1) t s e =
        match l.get? ((s + e).fdiv 2).toNat with
        | none => t
        | some (k, i) =>
          build_tree_aux l f
            (build_tree_aux l f (t.insert k i) s ((s + e).fdiv 2 - 1))
            ((s + e).fdiv 2 + 1) e)
    ∧ (∀ (α : Type) (elements : List (ℚ × α)),
      (buildBalancedTree elements).inorder.Perm elements) := by
  refine ⟨?_, ?_, ?_⟩
  · intro α l f t s e h
    simp [build_tree_aux, h]
  · intro α l f t s e h
    simp [build_tree_aux, h]
  · intro α elements
    exact buildBalancedTree_perm elements

theorem claim_C5_witness :
    (build_tree_aux ([] : List (ℚ × ℕ)) 1 BTree.leaf 0 (-1) = BTree.leaf)
    ∧ (buildBalancedTree [((1 : ℚ), 10), (2, 20)]).inorder.Perm
        [((1 : ℚ), 10), (2, 20)] :=
  ⟨claim_C5.1 ℕ [] 0 BTree.leaf 0 (-1) (by decide),
   claim_C5.2.2 ℕ [((1 : ℚ), 10), (2, 20)]⟩

/-- C6: during a single `find_way_out` run, once a cell's visited flag
is set it is never cleared — the visited set after any search step
contains the visited set before it — and no cell is expanded more than
once: the cells a step expands are pairwise distinct and were all
unvisited on entry. -/
theorem claim_C6 (m : Maze) (fuel : ℕ) (cur : Position)
    (path vis : List Position) :
    (∀ p ∈ vis, p ∈ (findPathAux m fuel cur path vis).2.1)
    ∧ (findPathAux m fuel cur path vis).2.2.Nodup
    ∧ (∀ p ∈ (findPathAux m fuel cur path vis).2.2, p ∉ vis)
    ∧ (∀ p, p ∈ (findPathAux m fuel cur path vis).2.1 ↔
        p ∈ vis ∨ p ∈ (findPathAux m fuel cur path vis).2.2) := by
  obtain ⟨hnd, hun, _hne, hiff⟩ := (findPath_stepOK m fuel).1 cur path vis
  exact ⟨fun p hp => (hiff p).mpr (Or.inl hp), hnd, hun, hiff⟩

theorem claim_C6_witness :
    Position.mk 0 0 ∈ (findPathAux ⟨1, 1, ⟨0, 0⟩, [], [[Tile.start]]⟩ 1 ⟨0, 0⟩ []
      [⟨0, 0⟩]).2.1 :=
  (claim_C6 ⟨1, 1, ⟨0, 0⟩, [], [[Tile.start]]⟩ 1 ⟨0, 0⟩ [] [⟨0, 0⟩]).1
    ⟨0, 0⟩ (by decide)

theorem foldl_validFilter (m : Maze) (cur : Position) :
    ∀ (l : List (ℤ × ℤ)) (acc : List Position),
      l.foldl (fun acc d =>
        if isValidPosition m ⟨cur.row + d.1, cur.col + d.2⟩ then
          acc ++ [⟨cur.row + d.1, cur.col + d.2⟩] else acc) acc
      = acc ++ (l.map (fun d => (⟨cur.row + d.1, cur.col + d.2⟩ : Position))).filter
          (fun q => isValidPosition m q) := by
  intro l
  induction l with
  | nil => intro acc; simp
  | cons d ds ih =>
    intro acc
    simp only [List.foldl_cons, List.map_cons, List.filter_cons]
    by_cases h : isValidPosition m ⟨cur.row + d.1, cur.col + d.2⟩ = true
    · rw [if_pos h, ih, h]
      simp [List.append_assoc]
    · rw [if_neg h, ih]
      simp only [Bool.not_eq_true] at h
      rw [h]
      simp

/-- C7: the candidate neighbours of a position are generated in the
fixed order up, down, left, right, and a neighbour is kept exactly when
it lies within the grid bounds and its tile is not a wall; start, exit,
empty and hollow tiles are all passable. -/
theorem claim_C7 (m : Maze) (p : Position) :
    getAvailablePositions m p =
      ([⟨p.row - 1, p.col⟩, ⟨p.row + 1, p.col⟩,
        ⟨p.row, p.col - 1⟩, ⟨p.row, p.col + 1⟩] : List Position).filter
        (fun q => isValidPosition m q)
    ∧ (∀ q : Position, isValidPosition m q = true ↔
        (0 ≤ q.row ∧ q.row < (m.rows : ℤ) ∧ 0 ≤ q.col ∧ q.col < (m.cols : ℤ)
          ∧ tileAt m q ≠ Tile.wall))
    ∧ (∀ q : Position, 0 ≤ q.row → q.row < (m.rows : ℤ) → 0 ≤ q.col →
        q.col < (m.cols : ℤ) →
        (tileAt m q = Tile.start ∨ tileAt m q = Tile.exit
          ∨ tileAt m q = Tile.empty ∨ (∃ i, tileAt m q = Tile.spookyH i)
          ∨ tileAt m q = Tile.mysticalH) →
        isValidPosition m q = true) := by
  refine ⟨?_, ?_, ?_⟩
  · rw [getAvailablePositions, foldl_validFilter m p mazeDirections []]
    rw [List.nil_append]
    congr 1
    simp [mazeDirections]
    omega
  · intro q
    rw [isValidPosition, decide_eq_true_eq]
  · intro q h1 h2 h3 h4 h5
    rw [isValidPosition, decide_eq_true_eq]
    refine ⟨h1, h2, h3, h4, ?_⟩
    rcases h5 with h | h | h | ⟨i, h⟩ | h <;> rw [h] <;> simp

theorem claim_C7_witness :
    isValidPosition ⟨1, 2, ⟨0, 0⟩, [⟨0, 1⟩], [[Tile.empty, Tile.exit]]⟩
      ⟨0, 1⟩ = true :=
  (claim_C7 ⟨1, 2, ⟨0, 0⟩, [⟨0, 1⟩], [[Tile.empty, Tile.exit]]⟩ ⟨0, 1⟩).2.2
    ⟨0, 1⟩ (by decide) (by decide) (by decide) (by decide)
    (Or.inr (Or.inl (by decide)))

/-- C8: `take_treasures` visits the path cells once each, in order: a
non-hollow cell is skipped; at a hollow cell the hollow's
`get_optimal_treasure` is invoked with the current remaining capacity,
a returned treasure (fitting the remaining capacity, which the code
re-checks) is appended and the capacity reduced by its weight, and a
failed call skips the cell; the result is `None` exactly when nothing
was collected, and the total weight of a returned treasure list never
exceeds the initial capacity. -/
theorem claim_C8 :
    (∀ st c cs cap acc, isHollowTile c = false →
      takeTreasuresAux st (c :: cs) cap acc = takeTreasuresAux st cs cap acc)
    ∧ (∀ st c cs cap acc t st', isHollowTile c = true →
      getOptimalTreasureAt st c cap = (some t, st') → t.weight ≤ cap →
      takeTreasuresAux st (c :: cs) cap acc
        = takeTreasuresAux st' cs (cap - t.weight) (acc ++ [t]))
    ∧ (∀ st c cs cap acc t st', isHollowTile c = true →
      getOptimalTreasureAt st c cap = (some t, st') → ¬ t.weight ≤ cap →
      takeTreasuresAux st (c :: cs) cap acc = takeTreasuresAux st' cs cap acc)
    ∧ (∀ st c cs cap acc st', isHollowTile c = true →
      getOptimalTreasureAt st c cap = (none, st') →
      takeTreasuresAux st (c :: cs) cap acc = takeTreasuresAux st' cs cap acc)
    ∧ (∀ st path cap, (takeTreasures st path cap).1 = none ↔
        (takeTreasuresAux st path cap []).1 = [])
    ∧ (∀ st path cap l st', takeTreasures st path cap = (some l, st') →
        (l.map Treasure.weight).sum ≤ cap) := by
  refine ⟨?_, ?_, ?_, ?_, ?_, ?_⟩
  · intro st c cs cap acc h
    simp [takeTreasuresAux, h]
  · intro st c cs cap acc t st' hh hopt hw
    simp [takeTreasuresAux, hh, hopt, hw]
  · intro st c cs cap acc t st' hh hopt hw
    simp [takeTreasuresAux, hh, hopt, hw]
  · intro st c cs cap acc st' hh hopt
    simp [takeTreasuresAux, hh, hopt]
  · intro st path cap
    rw [takeTreasures]
    cases hA : takeTreasuresAux st path cap [] with
    | mk acc rest2 =>
      obtain ⟨st2, cap2⟩ := rest2
      simp only
      by_cases he : acc.isEmpty
      · rw [if_pos he]
        simp only [List.isEmpty_iff] at he
        simp [he]
      · rw [if_neg he]
        simp only [List.isEmpty_iff] at he
        simp [he]
  · intro st path cap l st' h
    exact takeTreasures_weight_bound st path cap l st' h

theorem claim_C8_witness :
    (([Treasure.mk 4 2].map Treasure.weight).sum ≤ (3 : ℚ)) :=
  claim_C8.2.2.2.2.2 ⟨[], [((2 : ℚ), Treasure.mk 4 2)]⟩ [Tile.mysticalH] 3
    [Treasure.mk 4 2] ⟨[], []⟩ (by decide)

/-- The multiset of treasures a grid placement's tile lets one observe
in the hollow store: the contents of the referenced spooky tree or of
the single shared mystical heap. -/
def treasuresAt (st : HollowStore) : Tile → Multiset Treasure
  | Tile.spookyH i => ((st.spookies.getD i BTree.leaf).inorder.map Prod.snd : List Treasure)
  | Tile.mysticalH => (st.mystical.map Prod.snd : List Treasure)
  | _ => 0

/-- C9: in a loaded maze, all mystical tiles reference the one shared
heap: removing a treasure through any mystical placement removes it
from the collection observed through every other mystical placement
(one occurrence less; absent if it was unique).  Spooky placements, by
contrast, are pairwise distinct instances: two grid cells bearing the
same spooky instance index are the same cell, and taking from one
spooky instance changes neither the shared heap nor any other spooky
instance. -/
theorem claim_C9 (lines : List (List RawTile)) (spookyGen : ℕ → List Treasure)
    (mysticalTreasures : List Treasure) :
    (∀ r c r' c',
      gridTileAt (loadMazeFromFile lines spookyGen mysticalTreasures).1.grid r c
        = some Tile.mysticalH →
      gridTileAt (loadMazeFromFile lines spookyGen mysticalTreasures).1.grid r' c'
        = some Tile.mysticalH →
      ∀ cap t st',
        getOptimalTreasureAt (loadMazeFromFile lines spookyGen mysticalTreasures).2
            Tile.mysticalH cap = (some t, st') →
        treasuresAt st' Tile.mysticalH
            = (treasuresAt (loadMazeFromFile lines spookyGen mysticalTreasures).2
                Tile.mysticalH).erase t
          ∧ (Multiset.count t (treasuresAt
                (loadMazeFromFile lines spookyGen mysticalTreasures).2
                Tile.mysticalH) = 1 →
              t ∉ treasuresAt st' Tile.mysticalH))
    ∧ (∀ r c r' c' i,
      gridTileAt (loadMazeFromFile lines spookyGen mysticalTreasures).1.grid r c
        = some (Tile.spookyH i) →
      gridTileAt (loadMazeFromFile lines spookyGen mysticalTreasures).1.grid r' c'
        = some (Tile.spookyH i) →
      r = r' ∧ c = c')
    ∧ (∀ (st : HollowStore) (i : ℕ) (cap : ℚ) opt st',
      getOptimalTreasureAt st (Tile.spookyH i) cap = (opt, st') →
      st'.mystical = st.mystical
        ∧ ∀ j, j ≠ i → st'.spookies.get? j = st.spookies.get? j) := by
  refine ⟨?_, ?_, ?_⟩
  · intro r c r' c' _hp _hq cap t st' hEq
    rw [getOptimalTreasureAt] at hEq
    cases hOM : getOptimalTreasureMystical cap
        (loadMazeFromFile lines spookyGen mysticalTreasures).2.mystical with
    | mk res h' =>
      rw [hOM] at hEq
      simp only at hEq
      injection hEq with h1 h2
      subst h1
      obtain ⟨r0, hperm, _, _⟩ :=
        (getOptimalTreasureMystical_spec cap _).1 t h' hOM
      have hmap : ((loadMazeFromFile lines spookyGen mysticalTreasures).2.mystical.map
          Prod.snd).Perm (t :: h'.map Prod.snd) := by
        have := hperm.map Prod.snd
        simpa using this
      have hcoe : (treasuresAt (loadMazeFromFile lines spookyGen mysticalTreasures).2
          Tile.mysticalH) = t ::ₘ (h'.map Prod.snd : Multiset Treasure) := by
        rw [treasuresAt]
        exact_mod_cast Multiset.coe_eq_coe.mpr hmap
      have hst' : treasuresAt st' Tile.mysticalH
          = (h'.map Prod.snd : Multiset Treasure) := by
        rw [← h2, treasuresAt]
      constructor
      · rw [hst', hcoe, Multiset.erase_cons_head]
      · intro hcount
        rw [hcoe] at hcount
        rw [Multiset.count_cons_self] at hcount
        have : Multiset.count t (h'.map Prod.snd : Multiset Treasure) = 0 := by omega
        rw [hst']
        exact Multiset.count_eq_zero.mp this
  · intro r c r' c' i hp hq
    have hgrid : (loadMazeFromFile lines spookyGen mysticalTreasures).1.grid
        = (parseGrid lines 0).1 := rfl
    rw [hgrid] at hp hq
    exact parseGrid_spooky_inj lines 0 r c r' c' i hp hq
  · intro st i cap opt st' hEq
    rw [getOptimalTreasureAt] at hEq
    cases hget : st.spookies.get? i with
    | none =>
      rw [hget] at hEq
      injection hEq with h1 h2
      subst h2
      exact ⟨rfl, fun j _ => rfl⟩
    | some tr =>
      rw [hget] at hEq
      replace hEq : ((getOptimalTreasureSpooky cap tr).1,
          ({ st with spookies :=
            st.spookies.set i (getOptimalTreasureSpooky cap tr).2 } : HollowStore))
          = (opt, st') := hEq
      injection hEq with h1 h2
      subst h2
      refine ⟨rfl, ?_⟩
      intro j hj
      exact List.get?_set_ne _ st.spookies (fun h => hj h.symm)

theorem claim_C9_witness :
    treasuresAt ⟨[], []⟩ Tile.mysticalH
        = (treasuresAt (loadMazeFromFile [[RawTile.mysticalC, RawTile.mysticalC]]
            (fun _ => []) [Treasure.mk 0 1]).2 Tile.mysticalH).erase (Treasure.mk 0 1)
      ∧ (Multiset.count (Treasure.mk 0 1)
            (treasuresAt (loadMazeFromFile [[RawTile.mysticalC, RawTile.mysticalC]]
              (fun _ => []) [Treasure.mk 0 1]).2 Tile.mysticalH) = 1 →
          Treasure.mk 0 1 ∉ treasuresAt ⟨[], []⟩ Tile.mysticalH) :=
  (claim_C9 [[RawTile.mysticalC, RawTile.mysticalC]] (fun _ => []) [Treasure.mk 0 1]).1
    0 0 0 1 (by decide) (by decide) 1 (Treasure.mk 0 1) ⟨[], []⟩ (by decide)

/-- C10: the exit check of `find_path_aux` precedes the visited check
and the visited marking: a call at an end position returns the path
extended with that position at once, changing no visited flag and
expanding no cell; consequently exit cells are never marked visited,
and when the start position is itself an end position `find_way_out`
returns the one-cell path holding only the start position with the
visited flags untouched. -/
theorem claim_C10 (m : Maze) :
    (∀ (fuel : ℕ) (cur : Position) (path vis : List Position),
      cur ∈ m.endPositions →
      findPathAux m fuel cur path vis = (some (path ++ [cur]), vis, []))
    ∧ (∀ (fuel : ℕ) (cur : Position) (path vis : List Position),
      ∀ p ∈ (findPathAux m fuel cur path vis).2.2, p ∉ m.endPositions)
    ∧ (∀ vis, m.startPos ∈ m.endPositions →
      findWayOut m vis = (some [m.startPos], vis, [])) := by
  refine ⟨?_, ?_, ?_⟩
  · intro fuel cur path vis h
    exact findPathAux_of_end m fuel cur path vis h
  · intro fuel cur path vis p hp
    exact ((findPath_stepOK m fuel).1 cur path vis).2.2.1 p hp
  · intro vis h
    rw [findWayOut, findPathAux_of_end m _ _ _ _ h]
    simp

theorem claim_C10_witness :
    findWayOut ⟨1, 1, ⟨0, 0⟩, [⟨0, 0⟩], [[Tile.exit]]⟩ []
      = (some [⟨0, 0⟩], [], []) :=
  (claim_C10 ⟨1, 1, ⟨0, 0⟩, [⟨0, 0⟩], [[Tile.exit]]⟩).2.2 [] (by decide)
